import Mathlib

/-!
Verification development for the `fetcher` package of the
netease-music-data-mining repository.

The Python sources are shallowly embedded as executable Lean definitions:

* `jump_step`          — `src/util.py`, the exponential leap-offset generator;
* `Span`, `update_worked_span`, `WorkSpan.processed`
                       — `src/span.py`, worked-span bookkeeping;
* `JobState`, `stepFn`, `exec`, `IndexJob.run`
                       — `src/job.py`, the step/leap/reverse traversal
                         state machine of `IndexJob.run`;
* `IndexTask.chunk_iter` — `src/task.py`, the parallel range splitter;
* `FlagGroup.set` / `FlagGroup.unset` / `dfsGo` / `FlagGroup.register`
                       — `src/flag.py`, the flag-group container;
* `remaining_time`     — `src/monitor.py`, the ETA estimator.

Machine integers are modelled as `ℤ` (Python ints are unbounded), Python
floats appearing in progress/ETA arithmetic as `ℚ` (the quantities involved
are exact ratios of integers), and `raise` as explicit error results.
Unbounded loops are modelled with explicit fuel; `none` from a fuel-indexed
interpreter means the fuel ran out, never a result of the program.
-/

set_option autoImplicit false

/-! ### `util.jump_step` (src/util.py)

`jump_step(start=0, stop=None, base=2, repeat_count=2)` is a generator:
`for exp in count(start): yield from repeat(base ** exp, repeat_count)`
(the `stop` guard is inactive for the default `stop=None`).  `jump_step n`
below is the list produced by the first `n` iterations of that loop for the
default `start=0`/`stop=None` arguments. -/
def jump_step (base repeat_count n : ℕ) : List ℕ :=
  (List.range n).flatMap (fun exp => List.replicate repeat_count (base ^ exp))

/-- Spec-side description of the generator: its `k`-th element (0-based) is
`base ^ (k / repeat_count)`. -/
def jump_step_elem (base repeat_count k : ℕ) : ℕ :=
  base ^ (k / repeat_count)

/-! ### `span.Span` and `span.WorkSpan` (src/span.py) -/

/-- `Span(begin, end)` from src/span.py: a pair of attributes; the covered
closed interval is `[min_val, max_val]`.  The attribute order is significant
for `_update_worked_span`, so it is kept. -/
structure Span where
  begin_ : ℤ
  end_ : ℤ
deriving DecidableEq, Repr

/-- `Span.min_val`. -/
def Span.min_val (s : Span) : ℤ := min s.begin_ s.end_

/-- `Span.max_val`. -/
def Span.max_val (s : Span) : ℤ := max s.begin_ s.end_

/-- `Span.__len__ = max_val - min_val + 1`. -/
def Span.len (s : Span) : ℤ := s.max_val - s.min_val + 1

/-- `Span.contain(i) = min_val <= i <= max_val`. -/
def Span.contain (s : Span) (i : ℤ) : Bool :=
  decide (s.min_val ≤ i ∧ i ≤ s.max_val)

/-- Result of `WorkSpan._update_worked_span`: either the `IndexError` raise
or the new value of `_worked_span`. -/
inductive UpdRes where
  | indexError : UpdRes
  | ok (w : Span) : UpdRes
deriving DecidableEq, Repr

/-- `WorkSpan._update_worked_span(i)` from src/span.py.  `full` is the
span of the `WorkSpan` object itself (its own `begin`/`end` attributes,
i.e. the whole job range), `ws` the current `_worked_span` (`None` at
start).  The final `if i < begin or i > begin` follows the source verbatim;
its `else` branch is unreachable because `i = begin` is always contained. -/
def update_worked_span (full : Span) (ws : Option Span) (i : ℤ) : UpdRes :=
  if i < full.min_val ∨ full.max_val < i then .indexError
  else
    match ws with
    | none => .ok ⟨i, i⟩
    | some w =>
      if w.contain i then .ok w
      else if i < w.begin_ ∨ i > w.begin_ then .ok ⟨i, w.end_⟩
      else .ok ⟨w.begin_, i⟩

/-- `WorkSpan.processed = len(worked_span) / len(self)` (0 when no worked
span exists yet). -/
def WorkSpan.processed (full : Span) (ws : Option Span) : ℚ :=
  match ws with
  | none => 0
  | some w => (w.len : ℚ) / (full.len : ℚ)

/-- Iterated successful `_set_current` calls: fold `_update_worked_span`
over a list of indices; `none` if any update raises `IndexError`. -/
def foldWorked (full : Span) : Option Span → List ℤ → Option (Option Span)
  | ws, [] => some ws
  | ws, i :: is =>
    match update_worked_span full ws i with
    | .indexError => none
    | .ok w => foldWorked full (some w) is

/-! ### `monitor.JobStatusData.remaining_time` (src/monitor.py) -/

/-- Value of `JobStatusData.remaining_time`: `None`, `timedelta.max`
(the "unbounded" sentinel), or a finite wall-time amount (in the same unit
as the tick interval). -/
inductive RemTime where
  | none_ : RemTime
  | unbounded : RemTime
  | finite (t : ℚ) : RemTime
deriving DecidableEq, Repr

/-- Consecutive deltas `dq[i+1] - dq[i]` of the rolling window. -/
def deltas (dq : List ℚ) : List ℚ :=
  (dq.zip dq.tail).map (fun p => p.2 - p.1)

/-- `statistics.mean` of the consecutive deltas of `dq` (only evaluated by
`remaining_time` when `dq.length ≥ 2`). -/
def meanDelta (dq : List ℚ) : ℚ :=
  (deltas dq).sum / ((dq.length : ℚ) - 1)

/-- `JobStatusData.remaining_time` from src/monitor.py:
`None` when the job is not working; `timedelta.max` when fewer than two
window samples exist; `timedelta.max` when the mean consecutive delta
equals 0; otherwise `tick_interval * ((1 - processed) / mean)`. -/
def remaining_time (working : Bool) (dq : List ℚ) (processed tick : ℚ) :
    RemTime :=
  if working = false then .none_
  else if dq.length < 2 then .unbounded
  else if meanDelta dq = 0 then .unbounded
  else .finite (tick * ((1 - processed) / meanDelta dq))

/-! ### `job.IndexJob.run` (src/job.py) — the step/leap/reverse state machine

The traversal of `IndexJob.run` is embedded as a small-step interpreter.
One transition is one probe (one `_set_current` attempt plus at most one
handler invocation) or one of the phase glue operations
(`_prepare_stepping` / `_prepare_leaping` / `_prepare_reverse_stepping` /
`_prepare_reverse_leaping`).  The handler is a pure rejection predicate:
it raises `ExplicitlySkipHandlingError` exactly on the indices where
`reject` is true (the setting of the spec's traversal properties).  The
flag container `JobStepFlag` (imported by job.py but defined outside
src/) is represented by the three booleans the traversal reads —
`stepping`, `leaping`, `reverse` — which job.py only ever adds and removes
individually. -/

/-- `StepSpan`-like triple used for `job_span` and `_break_point_span`
(`begin`/`end`/`step` attributes; mutated in place by the prepare
methods). -/
structure JSpan where
  begin_ : ℤ
  end_ : ℤ
  step : ℤ
deriving DecidableEq, Repr, Inhabited

/-- Constructor arguments of an `IndexJob` (finite `end`), plus the
handler's rejection predicate. -/
structure JobCfg where
  begin_ : ℤ
  end_ : ℤ
  step : ℤ
  reject : ℤ → Bool

/-- The job's own `WorkSpan` bounds (`self.min_val`/`self.max_val` used by
`_update_worked_span`): the span of the constructor's `begin`/`end`. -/
def JobCfg.full (c : JobCfg) : Span := ⟨c.begin_, c.end_⟩

/-- One handler invocation, recorded with the lifecycle flags and
breakpoint bookkeeping in effect at the time of the call. -/
structure Ev where
  idx : ℤ
  accepted : Bool
  leaping : Bool
  reverse : Bool
  firstUnacc : Option ℤ
  spanEnd : ℤ
deriving DecidableEq, Repr

/-- Mutable state of a running `IndexJob`:`job_span`, `_current`,
`_worked_span`, the three traversal flags, and the breakpoint fields. -/
structure JobState where
  span : JSpan
  current : ℤ
  worked : Option Span
  stepping : Bool
  leaping : Bool
  reverse : Bool
  bpSpan : Option JSpan
  bpCurrent : Option ℤ
  firstUnacc : Option ℤ
deriving DecidableEq, Repr, Inhabited

/-- Program counter of the interpreter: about to enter `_step`
(`enterStepping`, which also models the `step == 0` special case), inside
`_step`'s loop with `next` the next index, about to enter `_leap`, or
inside `_leap`'s loop (`base` = the `current` the jumper started from,
`j` = how many offsets were consumed). -/
inductive Mode where
  | enterStepping : Mode
  | stepL (next : ℤ) : Mode
  | enterLeaping : Mode
  | leapL (base : ℤ) (j : ℕ) : Mode
deriving DecidableEq, Repr

/-- Partial sums of the default `jump_step()` offsets 1,1,2,2,4,4,…
(`jump_step_func` left at its default). -/
def jumpCum : ℕ → ℤ
  | 0 => 0
  | k + 1 => jumpCum k + (2 : ℤ) ^ (k / 2)

/-- Sign of `int(math.copysign(d, sign))` for positive `d`: negative only
for a negative `sign` argument. -/
def signOf (s : ℤ) : ℤ := if s < 0 then -1 else 1

/-- The `j`-th value yielded by `_jumper(base, sgn)` (0-based):
`base` plus the accumulated signed offsets. -/
def jumperAt (base sgn : ℤ) (j : ℕ) : ℤ := base + sgn * jumpCum (j + 1)

/-- Event record for the handler call at `i` on state `σ`
(emitted by `__safe_handle` after `_set_current` succeeded). -/
def mkEv (σ : JobState) (i : ℤ) (acc : Bool) : Ev :=
  ⟨i, acc, σ.leaping, σ.reverse, σ.firstUnacc, σ.span.end_⟩

/-- `IndexJob._prepare_stepping`: restore the breakpoint and resume
forward stepping.  `none` models the Python `AttributeError` on a missing
breakpoint (never reached from the initial state). -/
def prepare_stepping (σ : JobState) : Option JobState :=
  match σ.bpSpan, σ.bpCurrent with
  | some bp, some bpc =>
    some { σ with reverse := false, leaping := false, stepping := true,
                  span := bp, current := bpc + bp.step }
  | _, _ => none

/-- `IndexJob._prepare_leaping`: record the rejected `current` as
`_reverse_leaping_first_unaccepted_value` and switch stepping→leaping. -/
def prepare_leaping (σ : JobState) : JobState :=
  { σ with firstUnacc := some σ.current, stepping := false, leaping := true }

/-- `IndexJob._prepare_reverse_stepping`: switch leaping→stepping and move
`current` one (reversed) step. -/
def prepare_reverse_stepping (σ : JobState) : JobState :=
  { σ with leaping := false, stepping := true,
           current := σ.current + σ.span.step }

/-- `IndexJob._prepare_reverse_leaping`: save the breakpoint, reverse
`job_span` in place (`step := -step`, `begin := current`,
`end := first_unaccepted`), set the reverse flag.  (`firstUnacc` is
always set on this path; the `getD` default mirrors Python's silent
`end = None` which is never read afterwards.) -/
def prepare_reverse_leaping (σ : JobState) : JobState :=
  { σ with bpSpan := some σ.span, bpCurrent := some σ.current,
           span := ⟨σ.current, σ.firstUnacc.getD 0, -σ.span.step⟩,
           reverse := true }

/-- Result of one interpreter transition: continue, normal job end
(an `IndexError` escaping `run`'s loop), or a Python-level crash
(missing breakpoint). -/
inductive StepRes where
  | cont (m : Mode) (σ : JobState) : StepRes
  | stop (σ : JobState) : StepRes
  | crash : StepRes
deriving DecidableEq, Repr

/-- Helper projecting the post-state of a transition result. -/
def StepRes.stateOf : StepRes → Option JobState
  | .cont _ σ => some σ
  | .stop σ => some σ
  | .crash => none

/-- Exit glue of `_handle_stepping` after `_step` returns (rejection
break) or raises `IndexError` (`hadIndexError`): re-raise when not
reversed, else restore the breakpoint; on a normal exit switch phase
according to the reverse flag. -/
def stepExit (σ : JobState) (hadIndexError : Bool) : StepRes :=
  if hadIndexError ∧ σ.reverse = false then .stop σ
  else if σ.reverse then
    match prepare_stepping σ with
    | some σ' => .cont .enterStepping σ'
    | none => .crash
  else .cont .enterLeaping (prepare_leaping σ)

/-- Exit glue of `_handle_leaping` when `_leap` raises `IndexError`. -/
def leapExitError (σ : JobState) : StepRes :=
  if σ.reverse = false then .stop σ
  else
    match prepare_stepping σ with
    | some σ' => .cont .enterStepping σ'
    | none => .crash

/-- Exit glue of `_handle_leaping` when `_leap` finds an accepted probe. -/
def leapExitAccept (σ : JobState) : StepRes :=
  if σ.reverse then .cont .enterStepping (prepare_reverse_stepping σ)
  else .cont .enterLeaping (prepare_reverse_leaping σ)

/-- One transition of the `IndexJob.run` loop, returning the handler
events emitted during it. -/
def stepFn (cfg : JobCfg) : Mode → JobState → List Ev × StepRes
  | .enterStepping, σ =>
    if σ.span.step = 0 then
      -- `_step`'s `step == 0` special case: probe `job_span.begin` once,
      -- ignore the handler verdict, and return normally.
      match update_worked_span cfg.full σ.worked σ.span.begin_ with
      | .indexError => ([], stepExit σ true)
      | .ok w =>
        let σ' := { σ with worked := some w, current := σ.span.begin_ }
        ([mkEv σ' σ.span.begin_ (!cfg.reject σ.span.begin_)], stepExit σ' false)
    else ([], .cont (.stepL σ.current) σ)
  | .stepL next, σ =>
    match update_worked_span cfg.full σ.worked next with
    | .indexError => ([], stepExit σ true)
    | .ok w =>
      let σ' := { σ with worked := some w, current := next }
      let acc := !cfg.reject next
      if acc then (
        [mkEv σ' next acc], .cont (.stepL (next + σ.span.step)) σ')
      else ([mkEv σ' next acc], stepExit σ' false)
  | .enterLeaping, σ => ([], .cont (.leapL σ.current 0) σ)
  | .leapL base j, σ =>
    let i := jumperAt base (signOf σ.span.step) j
    match update_worked_span cfg.full σ.worked i with
    | .indexError => ([], leapExitError σ)
    | .ok w =>
      let σ' := { σ with worked := some w, current := i }
      let acc := !cfg.reject i
      if acc then ([mkEv σ' i acc], leapExitAccept σ')
      else ([mkEv σ' i acc], .cont (.leapL base (j + 1)) σ')

/-- Outcome of `IndexJob.run`: the trace of handler invocations plus the
final state, or a crash with the trace so far. -/
inductive RunRes where
  | ok (tr : List Ev) (final : JobState) : RunRes
  | crash (tr : List Ev) : RunRes
deriving DecidableEq, Repr

/-- Trace of a run outcome. -/
def RunRes.trace : RunRes → List Ev
  | .ok tr _ => tr
  | .crash tr => tr

/-- Fuel-indexed driver of `run`'s `while True` loop (`none` = fuel ran
out before the job ended). -/
def execJob (cfg : JobCfg) : ℕ → Mode → JobState → List Ev → Option RunRes
  | 0, _, _, _ => none
  | fuel + 1, m, σ, tr =>
    match stepFn cfg m σ with
    | (evs, .cont m' σ') => execJob cfg fuel m' σ' (tr ++ evs)
    | (evs, .stop σ') => some (.ok (tr ++ evs) σ')
    | (evs, .crash) => some (.crash (tr ++ evs))

/-- State set up by `IndexJob.run` before its loop: fresh worked span,
`current = job_span.begin`, the `stepping` flag set. -/
def initState (cfg : JobCfg) : JobState :=
  { span := ⟨cfg.begin_, cfg.end_, cfg.step⟩, current := cfg.begin_,
    worked := none, stepping := true, leaping := false, reverse := false,
    bpSpan := none, bpCurrent := none, firstUnacc := none }

/-- `IndexJob.run` (src/job.py) with the given fuel. -/
def IndexJob.run (cfg : JobCfg) (fuel : ℕ) : Option RunRes :=
  execJob cfg fuel .enterStepping (initState cfg) []

/-- Handler-invocation trace of a run (empty when the fuel ran out). -/
def runTrace (cfg : JobCfg) (fuel : ℕ) : List Ev :=
  match IndexJob.run cfg fuel with
  | some r => r.trace
  | none => []

/-- Whether the run ended normally within the fuel. -/
def runOk (cfg : JobCfg) (fuel : ℕ) : Bool :=
  match IndexJob.run cfg fuel with
  | some (.ok _ _) => true
  | _ => false

/-- Number of indices a clean forward traversal of `(begin, end, step)`
visits: `|begin - end| / |step| + 1`. -/
def stepCount (b e s : ℤ) : ℕ := (b - e).natAbs / s.natAbs + 1

/-- Validity check of `StepSpan.__init__` (src/span.py): raise unless the
step's sign can reach `end` from `begin`. -/
def validSpan (b e s : ℤ) : Prop :=
  ¬((b < e ∧ s ≤ 0) ∨ (e < b ∧ 0 ≤ s))

/-- Job of the spec's jump-back example family: range `[1, 6]`, step 1,
handler rejecting `{2, 3, 4, 6}`. -/
def cfgC1 : JobCfg :=
  ⟨1, 6, 1, fun i => decide (i = 2 ∨ i = 3 ∨ i = 4 ∨ i = 6)⟩

/-- Job over `[1, 8]`, step 1, handler rejecting `{3, 4, 5, 6}`: its leap
at 3 is accepted at 7 and the reverse leap then probes 1 < 3. -/
def cfgC4 : JobCfg :=
  ⟨1, 8, 1, fun i => decide (i = 3 ∨ i = 4 ∨ i = 5 ∨ i = 6)⟩

/-- A mid-stepping state of `cfgC4`'s job (indices 1 and 2 probed). -/
def stepStateW : JobState :=
  { span := ⟨1, 8, 1⟩, current := 2, worked := some ⟨2, 1⟩,
    stepping := true, leaping := false, reverse := false,
    bpSpan := none, bpCurrent := none, firstUnacc := none }

/-- The state after `cfgC4`'s job probes the rejected index 3 from
`stepStateW` (the stepping→leaping switch). -/
def stepPostW : JobState :=
  ((stepFn cfgC4 (.stepL 3) stepStateW).2.stateOf).getD default

/-! ### `task.IndexTask.chunk_iter` (src/task.py) -/

/-- `IndexTask.__len__`: `(end - begin - 1) // step + 1` with Python floor
division (`end` plays the role of an exclusive bound for positive step). -/
def IndexTask.len (b e s : ℤ) : ℤ := (e - b - 1).fdiv s + 1

/-- `IndexTask.chunk_iter` (src/task.py) as the list of `(begin, end)`
pairs of the yielded sub-tasks; `n` is the `chuck_count` constructor
argument (the `api` string and status plumbing carry no index data). -/
def IndexTask.chunk_iter (b e s n : ℤ) : List (ℤ × ℤ) :=
  if n ≤ 1 then [(b, e)]
  else
    let L := IndexTask.len b e s
    let extra := L.fmod n
    let fcc := if extra = 0 then n else n - 1
    let fs := L.fdiv fcc
    ((List.range fcc.toNat).map
      (fun i : ℕ => (b + (i : ℤ) * fs * s, b + ((i : ℤ) + 1) * fs * s))) ++
    (if extra = 0 then [] else [(b + fcc * fs * s, e)])

/-- The arithmetic index positions covered by a task `(b, e, s)`. -/
def IndexTask.indices (b e s : ℤ) : List ℤ :=
  (List.range (IndexTask.len b e s).toNat).map (fun k : ℕ => b + (k : ℤ) * s)

/-! ### `flag.FlagGroup` (src/flag.py)

Flags are identified with already-resolved vocabulary members (a type `α`
with decidable equality): `to_flag_objs`/`get_flag` name resolution and
the string plumbing of `Flag` carry no set-theoretic content.  `parents`
maps a member to its resolved parent members, `mutex` is the vocabulary's
`_get_mutex_groups()` table. -/

/-- Exceptions of `FlagGroup.set`/`unset`: the mutual-exclusion
`ValueError` carrying `conflict_group`, or exhaustion of the recursion
fuel (the Python recursion is unbounded only on cyclic vocabularies,
which `register` rejects). -/
inductive FlagErr (α : Type) where
  | conflict (g : Finset α) : FlagErr α
  | fuel : FlagErr α
deriving DecidableEq

/-- `FlagGroup._get_conflict_group(flags)`: the first mutex group whose
intersection with `flags` has more than one member (as that
intersection), if any. -/
def conflictGroup {α : Type} [DecidableEq α]
    (mutex : List (Finset α)) (flags : Finset α) : Option (Finset α) :=
  mutex.findSome?
    (fun g => if 1 < (g ∩ flags).card then some (g ∩ flags) else none)

/-- One iteration of `FlagGroup.set`'s loop for a single flag, with
`set_parent_flag_automatically=True` (the default; the recursive
`self.set(parent_name)` calls always use the default): recursively set
every parent, check the mutual-exclusion rules on `flags | {flag}`, then
add the flag. -/
def setOne {α : Type} [DecidableEq α]
    (parents : α → List α) (mutex : List (Finset α)) :
    ℕ → Finset α → α → Except (FlagErr α) (Finset α)
  | 0, _, _ => .error .fuel
  | fuel + 1, S, f => do
    let S' ← (parents f).foldlM (fun T p => setOne parents mutex fuel T p) S
    match conflictGroup mutex (insert f S') with
    | some c => .error (.conflict c)
    | none => .ok (insert f S')

/-- Outcome of a `set`/`unset` call: the final member set, or the raised
error together with the member set after `_work`'s rollback. -/
inductive CallRes (α : Type) where
  | ok (S : Finset α) : CallRes α
  | err (e : FlagErr α) (S : Finset α) : CallRes α
deriving DecidableEq

/-- `FlagGroup.set` (src/flag.py) on resolved flags `fs` in iteration
order: the loop body under `_work`'s rollback-on-exception. -/
def FlagGroup.set {α : Type} [DecidableEq α]
    (parents : α → List α) (mutex : List (Finset α))
    (fuel : ℕ) (S : Finset α) (fs : List α) : CallRes α :=
  match fs.foldlM (fun T f => setOne parents mutex fuel T f) S with
  | .ok S' => .ok S'
  | .error e => .err e S

/-- One iteration of `FlagGroup.unset`'s loop with the default
`remove_all_children=True`: recursively unset every member of the
pre-iteration snapshot that lists the flag among its parents, then
discard the flag itself (absent flags are tolerated).  The snapshot
`self._flags - {flag}` is enumerated in sorted order (Python's `set`
iteration order is unspecified; the resulting member set does not depend
on it). -/
def unsetOne {α : Type} [DecidableEq α] [LinearOrder α]
    (parents : α → List α) :
    ℕ → Finset α → α → Except (FlagErr α) (Finset α)
  | 0, _, _ => .error .fuel
  | fuel + 1, S, f => do
    let children := ((S.erase f).filter (fun g => f ∈ parents g)).sort (· ≤ ·)
    let S' ← children.foldlM (fun T g => unsetOne parents fuel T g) S
    pure (S'.erase f)

/-- `FlagGroup.unset` (src/flag.py) on resolved flags, with rollback. -/
def FlagGroup.unset {α : Type} [DecidableEq α] [LinearOrder α]
    (parents : α → List α) (fuel : ℕ) (S : Finset α) (fs : List α) :
    CallRes α :=
  match fs.foldlM (fun T f => unsetOne parents fuel T f) S with
  | .ok S' => .ok S'
  | .error e => .err e S

/-! ### `flag.FlagGroup._check_loop` and `register` (src/flag.py) -/

/-- State of `_check_loop`'s DFS: `visit_states` in first-visit order,
the `loop` accumulator, and the `loop_nodes_collecting` flag. -/
structure DfsSt (α : Type) where
  visited : List α
  loop : List α
  collecting : Bool
deriving DecidableEq, Repr

/-- The recursive `visit` of `FlagGroup._check_loop`, flattened into one
fuel-indexed function: `.inl n` is a call `visit(n)`, `.inr ps` the
remainder of a node's `for parent in flag_.parents` loop (which `break`s
on the first already-visited parent).  `none` = fuel ran out. -/
def dfsGo {α : Type} [DecidableEq α] (parents : α → List α) :
    ℕ → (α ⊕ List α) → DfsSt α → Option (DfsSt α)
  | 0, _, _ => none
  | fuel + 1, .inl n, st =>
    match dfsGo parents fuel (.inr (parents n))
        { st with visited := st.visited ++ [n] } with
    | none => none
    | some st1 =>
      let st2 := if st1.loop ≠ [] ∧ n ∈ st1.loop then
        { st1 with collecting := false } else st1
      some (if st2.collecting then
        { st2 with loop := st2.loop ++ [n] } else st2)
  | _ + 1, .inr [], st => some st
  | fuel + 1, .inr (p :: ps), st =>
    if p ∈ st.visited then
      some { st with loop := st.loop ++ [p], collecting := true }
    else
      match dfsGo parents fuel (.inl p) st with
      | none => none
      | some st1 => dfsGo parents fuel (.inr ps) st1

/-- `FlagGroup._check_loop(flag)`: run the DFS from `flag` on fresh state
and raise (`.error loop`) when the collected loop list is nonempty. -/
def check_loop {α : Type} [DecidableEq α] (parents : α → List α)
    (fuel : ℕ) (f : α) : Option (Except (List α) Unit) :=
  (dfsGo parents fuel (.inl f) ⟨[], [], false⟩).map
    (fun st => if st.loop = [] then .ok () else .error st.loop)

/-- `FlagGroup.register` (src/flag.py) restricted to its cycle check: the
new flags are validated by `_check_loop` in order, stopping at the first
error (name-conflict checks and `get_flag` resolution are outside this
resolved-member model). -/
def FlagGroup.register {α : Type} [DecidableEq α] (parents : α → List α)
    (fuel : ℕ) : List α → Option (Except (List α) Unit)
  | [] => some (.ok ())
  | f :: fs =>
    match check_loop parents fuel f with
    | none => none
    | some (.error L) => some (.error L)
    | some (.ok _) => FlagGroup.register parents fuel fs

/-- Edge of the parent graph: `b` is a (resolved) parent of `a`. -/
def parentEdge {α : Type} (parents : α → List α) (a b : α) : Prop :=
  b ∈ parents a

/-- Whether the list `L` printed by the cycle error
(`"<-".join(loop)` closed with `loop[0]`) denotes an actual parent cycle:
each printed `x<-y` pair satisfies `x ∈ parents y`, including the closing
pair. -/
def isCycleChain {α : Type} (parents : α → List α) (L : List α) : Prop :=
  L ≠ [] ∧ List.Chain' (fun a b => a ∈ parents b) (L ++ L.take 1)

/-- Parent graph of the `register` counterexample: a diamond
`0 → {1, 2} → 3` together with a genuine two-cycle `4 ↔ 5`. -/
def parsC7 (n : ℕ) : List ℕ :=
  if n = 0 then [1, 2]
  else if n = 1 then [3]
  else if n = 2 then [3]
  else if n = 4 then [5]
  else if n = 5 then [4]
  else []

/-! ## Theorems -/

/-! ### C9 — the default leap-offset sequence -/

theorem jump_step_succ_eq (b r n : ℕ) :
    jump_step b r (n + 1) = jump_step b r n ++ List.replicate r (b ^ n) := by
  simp [jump_step, List.range_succ]

theorem jump_step_length (b r n : ℕ) : (jump_step b r n).length = r * n := by
  induction n with
  | zero => simp [jump_step]
  | succ n ih => rw [jump_step_succ_eq]; simp [ih]; ring

/-- C9: with the default parameters (base 2, repeat count 2) the
`jump_step` generator yields `base^e` twice for each exponent
`e = 0, 1, 2, …`: its `k`-th element is `2 ^ (k / 2)`, and the first
eight elements are `1,1,2,2,4,4,8,8`. -/
theorem jump_step_default_sequence :
    (∀ n k : ℕ, k < 2 * n →
      (jump_step 2 2 n)[k]? = some (jump_step_elem 2 2 k)) ∧
    jump_step 2 2 4 = [1, 1, 2, 2, 4, 4, 8, 8] := by
  constructor
  · intro n
    induction n with
    | zero => intro k hk; omega
    | succ n ih =>
      intro k hk
      rw [jump_step_succ_eq, List.getElem?_append]
      rw [jump_step_length]
      by_cases h : k < 2 * n
      · rw [if_pos h]; exact ih k h
      · rw [if_neg h]
        have hk2 : k - 2 * n < 2 := by omega
        have hdiv : k / 2 = n := by omega
        rw [List.getElem?_replicate]
        simp [hk2, jump_step_elem, hdiv]
  · decide

theorem jump_step_default_sequence_witness :
    5 < 2 * 4 ∧ (jump_step 2 2 4)[5]? = some (jump_step_elem 2 2 5) :=
  ⟨by decide, jump_step_default_sequence.1 4 5 (by decide)⟩

/-! ### C8 — `remaining_time` -/

/-- C8 (counterexample): with the job working, window `[1/2, 1/4]` and
`processed = 1/4`, the mean consecutive delta is `-1/4 ≤ 0`, yet
`remaining_time` is the (negative) finite value `-3` tick intervals, not
the unbounded sentinel: the code compares the mean against `== 0`, not
`≤ 0`. -/
theorem remaining_time_negative_mean_not_unbounded :
    meanDelta [1/2, 1/4] < 0 ∧
    remaining_time true [1/2, 1/4] (1/4) 1 = .finite (-3) ∧
    remaining_time true [1/2, 1/4] (1/4) 1 ≠ .unbounded := by
  have hm : meanDelta [1/2, 1/4] = -(1/4) := by
    norm_num [meanDelta, deltas]
  have hr : remaining_time true [1/2, 1/4] (1/4) 1 = .finite (-3) := by
    rw [remaining_time]
    rw [if_neg (by simp), if_neg (by simp), if_neg (by rw [hm]; norm_num)]
    rw [hm]
    norm_num
  exact ⟨by rw [hm]; norm_num, hr, by rw [hr]; simp⟩

/-- C8 (amended): `remaining_time` is `None` when the job is not running;
when running it is the unbounded sentinel if fewer than 2 window samples
exist or if the mean of consecutive sample deltas is exactly 0, and
otherwise equals `(1 − processed) / mean` converted to wall time by the
tick interval (a negative amount when the mean is negative). -/
theorem remaining_time_cases (working : Bool) (dq : List ℚ)
    (processed tick : ℚ) :
    (working = false → remaining_time working dq processed tick = .none_) ∧
    (working = true → dq.length < 2 →
      remaining_time working dq processed tick = .unbounded) ∧
    (working = true → 2 ≤ dq.length → meanDelta dq = 0 →
      remaining_time working dq processed tick = .unbounded) ∧
    (working = true → 2 ≤ dq.length → meanDelta dq ≠ 0 →
      remaining_time working dq processed tick
        = .finite (tick * ((1 - processed) / meanDelta dq))) := by
  refine ⟨?_, ?_, ?_, ?_⟩ <;> intro hw
  · simp [remaining_time, hw]
  · intro hlen; simp [remaining_time, hw, hlen]
  · intro hlen hmean
    have : ¬dq.length < 2 := by omega
    simp [remaining_time, hw, this, hmean]
  · intro hlen hmean
    have : ¬dq.length < 2 := by omega
    simp [remaining_time, hw, this, hmean]

theorem remaining_time_cases_witness :
    (false = false → remaining_time false [] 0 1 = .none_) ∧
    (false = true → ([] : List ℚ).length < 2 →
      remaining_time false [] 0 1 = .unbounded) ∧
    (false = true → 2 ≤ ([] : List ℚ).length → meanDelta [] = 0 →
      remaining_time false [] 0 1 = .unbounded) ∧
    (false = true → 2 ≤ ([] : List ℚ).length → meanDelta [] ≠ 0 →
      remaining_time false [] 0 1
        = .finite (1 * ((1 - 0) / meanDelta []))) :=
  remaining_time_cases false [] 0 1

/-! ### C3 — the range splitter -/

/-- C3 (counterexample): splitting the 11-position range `[0, 11)` into
3 equal-weight chunks yields sizes 5, 5, 1; the first chunk's size
differs from the proportional share `11/3` by `4/3 > 1`, so chunk sizes
are not proportional to the weights within one unit of rounding. -/
theorem chunk_iter_not_proportional :
    IndexTask.chunk_iter 0 11 1 3 = [(0, 5), (5, 10), (10, 11)] ∧
    IndexTask.len 0 11 1 = 11 ∧
    IndexTask.len 0 5 1 = 5 ∧
    ¬|(5 : ℚ) - 11 / 3| ≤ 1 := by
  refine ⟨by decide, by decide, by decide, ?_⟩
  rw [abs_le]
  norm_num

theorem IndexTask.len_of_end (B m s : ℤ) (hs : 0 < s) :
    IndexTask.len B (B + m * s) s = m := by
  rw [IndexTask.len, Int.fdiv_eq_ediv _ hs.le]
  have h := (Int.ediv_emod_unique (a := B + m * s - B - 1)
    (b := s) (r := s - 1) (q := m - 1) hs).2 ⟨by ring, by omega, by omega⟩
  rw [h.1]
  ring

theorem IndexTask.len_shift (b e s m : ℤ) (hs : 0 < s) :
    IndexTask.len (b + m * s) e s = IndexTask.len b e s - m := by
  rw [IndexTask.len, IndexTask.len, Int.fdiv_eq_ediv _ hs.le,
    Int.fdiv_eq_ediv _ hs.le]
  have h : e - (b + m * s) - 1 = (e - b - 1) + (-m) * s := by ring
  rw [h, Int.add_mul_ediv_right _ _ (by omega : s ≠ 0)]
  ring

theorem IndexTask.indices_split (b e s m : ℤ) (hs : 0 < s)
    (hm : 0 ≤ m) (hle : m ≤ IndexTask.len b e s) :
    IndexTask.indices b (b + m * s) s ++ IndexTask.indices (b + m * s) e s
      = IndexTask.indices b e s := by
  have hlen1 : IndexTask.len b (b + m * s) s = m := IndexTask.len_of_end b m s hs
  have hlen2 : IndexTask.len (b + m * s) e s = IndexTask.len b e s - m :=
    IndexTask.len_shift b e s m hs
  rw [IndexTask.indices, IndexTask.indices, IndexTask.indices, hlen1, hlen2]
  have hsplit : (IndexTask.len b e s).toNat
      = m.toNat + (IndexTask.len b e s - m).toNat := by omega
  rw [hsplit, List.range_add, List.map_append, List.map_map]
  congr 1
  apply List.map_congr_left
  intro k _
  simp only [Function.comp_apply]
  push_cast
  rw [Int.toNat_of_nonneg hm]
  ring

theorem chunks_join (s fs : ℤ) (hs : 0 < s) (hfs : 0 ≤ fs) :
    ∀ (k : ℕ) (B : ℤ),
    (((List.range k).map
        (fun i : ℕ => (B + (i : ℤ) * fs * s, B + ((i : ℤ) + 1) * fs * s))).map
      (fun c => IndexTask.indices c.1 c.2 s)).flatten
      = IndexTask.indices B (B + ((k : ℤ) * fs) * s) s := by
  intro k
  induction k with
  | zero =>
    intro B
    have h0 : IndexTask.len B (B + ((0 : ℤ) * fs) * s) s = 0 := by
      have := IndexTask.len_of_end B (0 * fs) s hs
      simpa using this
    simp only [Nat.cast_zero, List.range_zero, List.map_nil, List.flatten_nil]
    rw [IndexTask.indices, h0]
    simp
  | succ k ih =>
    intro B
    rw [List.range_succ, List.map_append, List.map_append, List.flatten_append]
    rw [ih B]
    simp only [List.map_cons, List.map_nil, List.flatten_cons,
      List.flatten_nil, List.append_nil]
    have hgoal := IndexTask.indices_split B (B + (((k : ℤ) + 1) * fs) * s) s
      ((k : ℤ) * fs) hs (by positivity) ?_
    · exact_mod_cast hgoal
    · rw [IndexTask.len_of_end _ _ _ hs]
      nlinarith

theorem chunk_len_nonneg (b e s : ℤ) (hs : 0 < s) (hbe : b ≤ e) :
    0 ≤ IndexTask.len b e s := by
  rw [IndexTask.len, Int.fdiv_eq_ediv _ hs.le]
  have hm1 : (-1 : ℤ) / s = -1 :=
    ((Int.ediv_emod_unique (a := -1) (b := s) (r := s - 1) (q := -1) hs).2
      ⟨by ring, by omega, by omega⟩).1
  have := Int.ediv_le_ediv hs (show (-1 : ℤ) ≤ e - b - 1 by omega)
  omega

theorem chunk_mem_len (b fs s : ℤ) (hs : 0 < s) (k : ℕ) (p : ℤ × ℤ)
    (hp : p ∈ (List.range k).map
      (fun i : ℕ => (b + (i : ℤ) * fs * s, b + ((i : ℤ) + 1) * fs * s))) :
    IndexTask.len p.1 p.2 s = fs := by
  obtain ⟨i, _, rfl⟩ := List.mem_map.1 hp
  have h2 : b + ((i : ℤ) + 1) * fs * s = (b + (i : ℤ) * fs * s) + fs * s := by
    ring
  rw [h2]
  exact IndexTask.len_of_end _ _ _ hs

/-- C3 (amended): for a positive step, `IndexTask.chunk_iter` yields
contiguous chunks whose index lists concatenate to exactly the full
task's index list (full coverage, no gaps, no overlaps); all chunks
except possibly the last have equal size (sizes are not, in general,
proportional to the weights within one unit — see the counterexample);
and splitting the 100-index range `[0, 100)` into two equal-weight
chunks yields exactly `(0, 50)` and `(50, 100)`, i.e. index sets
`{0..49}` and `{50..99}`. -/
theorem chunk_iter_partition :
    (∀ b e s n : ℤ, 0 < s → b ≤ e →
      ((((IndexTask.chunk_iter b e s n).map
          (fun c => IndexTask.indices c.1 c.2 s)).flatten
        = IndexTask.indices b e s)
      ∧ (∀ p ∈ (IndexTask.chunk_iter b e s n).dropLast,
          ∀ q ∈ (IndexTask.chunk_iter b e s n).dropLast,
          IndexTask.len p.1 p.2 s = IndexTask.len q.1 q.2 s))) ∧
    IndexTask.chunk_iter 0 100 1 2 = [(0, 50), (50, 100)] := by
  constructor
  · intro b e s n hs hbe
    by_cases hn : n ≤ 1
    · rw [IndexTask.chunk_iter, if_pos hn]
      exact ⟨by simp, by simp⟩
    · push_neg at hn
      have hL0 : 0 ≤ IndexTask.len b e s := chunk_len_nonneg b e s hs hbe
      rw [IndexTask.chunk_iter, if_neg (by omega)]
      simp only []
      by_cases hx : (IndexTask.len b e s).fmod n = 0
      · -- n divides the length: n equal chunks, no extra chunk
        rw [if_pos hx, if_pos hx, List.append_nil]
        have hfs : 0 ≤ (IndexTask.len b e s).fdiv n := by
          rw [Int.fdiv_eq_ediv _ (by omega)]
          exact Int.ediv_nonneg hL0 (by omega)
        have hdvd : n ∣ IndexTask.len b e s := by
          apply Int.dvd_of_emod_eq_zero
          rw [← Int.fmod_eq_emod _ (by omega : (0:ℤ) ≤ n)]
          exact hx
        constructor
        · rw [chunks_join s _ hs hfs n.toNat b]
          have hcast : ((n.toNat : ℤ) * (IndexTask.len b e s).fdiv n)
              = IndexTask.len b e s := by
            rw [Int.toNat_of_nonneg (by omega : (0:ℤ) ≤ n),
              Int.fdiv_eq_ediv _ (by omega)]
            exact Int.mul_ediv_cancel' hdvd
          rw [hcast, IndexTask.indices, IndexTask.indices,
            IndexTask.len_of_end _ _ _ hs]
        · intro p hp q hq
          have hp' := List.Sublist.mem hp (List.dropLast_sublist _)
          have hq' := List.Sublist.mem hq (List.dropLast_sublist _)
          rw [chunk_mem_len b _ s hs _ p hp', chunk_mem_len b _ s hs _ q hq']
      · -- n - 1 equal chunks plus a final remainder chunk
        rw [if_neg hx, if_neg hx]
        have hfs : 0 ≤ (IndexTask.len b e s).fdiv (n - 1) := by
          rw [Int.fdiv_eq_ediv _ (by omega)]
          exact Int.ediv_nonneg hL0 (by omega)
        have hmle : (n - 1) * (IndexTask.len b e s).fdiv (n - 1)
            ≤ IndexTask.len b e s := by
          rw [Int.fdiv_eq_ediv _ (by omega), mul_comm]
          exact Int.ediv_mul_le _ (by omega)
        constructor
        · rw [List.map_append, List.flatten_append,
            chunks_join s _ hs hfs (n - 1).toNat b]
          have hcast : (((n - 1).toNat : ℤ)) = n - 1 :=
            Int.toNat_of_nonneg (by omega)
          rw [hcast]
          simp only [List.map_cons, List.map_nil, List.flatten_cons,
            List.flatten_nil, List.append_nil]
          have := IndexTask.indices_split b e s
            ((n - 1) * (IndexTask.len b e s).fdiv (n - 1)) hs
            (mul_nonneg (by omega) hfs) hmle
          calc IndexTask.indices b
                (b + (n - 1) * (IndexTask.len b e s).fdiv (n - 1) * s) s
              ++ IndexTask.indices
                (b + (n - 1) * (IndexTask.len b e s).fdiv (n - 1) * s) e s
              = IndexTask.indices b
                (b + ((n - 1) * (IndexTask.len b e s).fdiv (n - 1)) * s) s
              ++ IndexTask.indices
                (b + ((n - 1) * (IndexTask.len b e s).fdiv (n - 1)) * s) e s
                := by ring_nf
            _ = IndexTask.indices b e s := this
        · intro p hp q hq
          rw [List.dropLast_concat] at hp hq
          rw [chunk_mem_len b _ s hs _ p hp, chunk_mem_len b _ s hs _ q hq]
  · decide

theorem chunk_iter_partition_witness :
    (0 : ℤ) < 1 ∧ (0 : ℤ) ≤ 99 ∧
    ((((IndexTask.chunk_iter 0 99 1 2).map
        (fun c => IndexTask.indices c.1 c.2 1)).flatten
      = IndexTask.indices 0 99 1)
    ∧ (∀ p ∈ (IndexTask.chunk_iter 0 99 1 2).dropLast,
        ∀ q ∈ (IndexTask.chunk_iter 0 99 1 2).dropLast,
        IndexTask.len p.1 p.2 1 = IndexTask.len q.1 q.2 1)) :=
  ⟨by norm_num, by norm_num,
    chunk_iter_partition.1 0 99 1 2 (by norm_num) (by norm_num)⟩

/-! ### C10 — the worked span tracks the extremes of the probed indices -/

theorem le_foldl_max (l : List ℤ) : ∀ x : ℤ, x ≤ l.foldl max x := by
  induction l with
  | nil => intro x; simp
  | cons i l ih =>
    intro x
    exact le_trans (le_max_left x i) (ih (max x i))

theorem foldl_max_le (l : List ℤ) :
    ∀ x c : ℤ, x ≤ c → (∀ i ∈ l, i ≤ c) → l.foldl max x ≤ c := by
  induction l with
  | nil => intro x c hx _; simpa using hx
  | cons i l ih =>
    intro x c hx h
    exact ih (max x i) c (max_le hx (h i (by simp)))
      (fun j hj => h j (by simp [hj]))

theorem foldl_min_le (l : List ℤ) : ∀ x : ℤ, l.foldl min x ≤ x := by
  induction l with
  | nil => intro x; simp
  | cons i l ih =>
    intro x
    exact le_trans (ih (min x i)) (min_le_left x i)

theorem le_foldl_min (l : List ℤ) :
    ∀ x c : ℤ, c ≤ x → (∀ i ∈ l, c ≤ i) → c ≤ l.foldl min x := by
  induction l with
  | nil => intro x c hx _; simpa using hx
  | cons i l ih =>
    intro x c hx h
    exact ih (min x i) c (le_min hx (h i (by simp)))
      (fun j hj => h j (by simp [hj]))

theorem foldl_min_const (l : List ℤ) :
    ∀ x : ℤ, (∀ i ∈ l, x ≤ i) → l.foldl min x = x := by
  induction l with
  | nil => intro x _; rfl
  | cons i l ih =>
    intro x h
    have : min x i = x := min_eq_left (h i (by simp))
    rw [List.foldl_cons, this]
    exact ih x (fun j hj => h j (by simp [hj]))

theorem foldl_max_const (l : List ℤ) :
    ∀ x : ℤ, (∀ i ∈ l, i ≤ x) → l.foldl max x = x := by
  induction l with
  | nil => intro x _; rfl
  | cons i l ih =>
    intro x h
    have : max x i = x := max_eq_left (h i (by simp))
    rw [List.foldl_cons, this]
    exact ih x (fun j hj => h j (by simp [hj]))

theorem foldWorked_forward (full : Span) (hbe : full.begin_ ≤ full.end_) :
    ∀ (rest : List ℤ) (x : ℤ), full.begin_ ≤ x → x ≤ full.max_val →
    (∀ i ∈ rest, full.begin_ ≤ i ∧ i ≤ full.max_val) →
    foldWorked full (some ⟨x, full.begin_⟩) rest
      = some (some ⟨rest.foldl max x, full.begin_⟩) := by
  have hmin : full.min_val = full.begin_ := min_eq_left hbe
  intro rest
  induction rest with
  | nil => intro x _ _ _; rfl
  | cons i rest ih =>
    intro x hx hxmax h
    have hi := h i (by simp)
    have hupd : update_worked_span full (some ⟨x, full.begin_⟩) i
        = .ok (if i ≤ x then ⟨x, full.begin_⟩ else ⟨i, full.begin_⟩) := by
      rw [update_worked_span, if_neg (by rw [hmin]; omega)]
      by_cases hcase : i ≤ x
      · rw [if_pos]
        · simp [hcase]
        · simp only [Span.contain, Span.min_val, Span.max_val]
          simp only [decide_eq_true_eq]
          constructor <;> [skip; omega]
          have : min x full.begin_ = full.begin_ := min_eq_right hx
          omega
      · have hcontain : (Span.contain ⟨x, full.begin_⟩ i) = false := by
          simp only [Span.contain, Span.min_val, Span.max_val]
          simp only [decide_eq_false_iff_not]
          intro hc
          have : max x full.begin_ = x := max_eq_left hx
          omega
        rw [hcontain]
        simp only [Bool.false_eq_true, if_false]
        rw [if_pos (Or.inr (show i > Span.begin_ ⟨x, full.begin_⟩ by
          change i > x; omega))]
        simp [hcase]
    rw [foldWorked, hupd]
    by_cases hcase : i ≤ x
    · simp only [if_pos hcase]
      rw [ih x hx hxmax (fun j hj => h j (by simp [hj]))]
      have : max x i = x := max_eq_left hcase
      rw [List.foldl_cons, this]
    · simp only [if_neg hcase]
      rw [ih i hi.1 hi.2 (fun j hj => h j (by simp [hj]))]
      have : max x i = i := max_eq_right (by omega)
      rw [List.foldl_cons, this]

theorem foldWorked_backward (full : Span) (hbe : full.end_ ≤ full.begin_) :
    ∀ (rest : List ℤ) (x : ℤ), x ≤ full.begin_ → full.min_val ≤ x →
    (∀ i ∈ rest, full.min_val ≤ i ∧ i ≤ full.begin_) →
    foldWorked full (some ⟨x, full.begin_⟩) rest
      = some (some ⟨rest.foldl min x, full.begin_⟩) := by
  have hmax : full.max_val = full.begin_ := max_eq_left hbe
  intro rest
  induction rest with
  | nil => intro x _ _ _; rfl
  | cons i rest ih =>
    intro x hx hxmin h
    have hi := h i (by simp)
    have hupd : update_worked_span full (some ⟨x, full.begin_⟩) i
        = .ok (if x ≤ i then ⟨x, full.begin_⟩ else ⟨i, full.begin_⟩) := by
      rw [update_worked_span, if_neg (by rw [hmax]; omega)]
      by_cases hcase : x ≤ i
      · rw [if_pos]
        · simp [hcase]
        · simp only [Span.contain, Span.min_val, Span.max_val]
          simp only [decide_eq_true_eq]
          constructor
          · have : min x full.begin_ = x := min_eq_left hx
            omega
          · have : max x full.begin_ = full.begin_ := max_eq_right hx
            omega
      · have hcontain : (Span.contain ⟨x, full.begin_⟩ i) = false := by
          simp only [Span.contain, Span.min_val, Span.max_val]
          simp only [decide_eq_false_iff_not]
          intro hc
          have : min x full.begin_ = x := min_eq_left hx
          omega
        rw [hcontain]
        simp only [Bool.false_eq_true, if_false]
        rw [if_pos (Or.inl (show i < Span.begin_ ⟨x, full.begin_⟩ by
          change i < x; omega))]
        simp [hcase]
    rw [foldWorked, hupd]
    by_cases hcase : x ≤ i
    · simp only [if_pos hcase]
      rw [ih x hx hxmin (fun j hj => h j (by simp [hj]))]
      have : min x i = x := min_eq_left hcase
      rw [List.foldl_cons, this]
    · simp only [if_neg hcase]
      rw [ih i hi.2 hi.1 (fun j hj => h j (by simp [hj]))]
      have : min x i = i := min_eq_right (by omega)
      rw [List.foldl_cons, this]

/-- C10: throughout any run whose first probed index is the range's
`begin` (which `IndexJob.run` guarantees, and which is an extreme of the
closed interval), after every successful `_set_current` the worked span
covers exactly the closed interval from the minimum to the maximum index
set as current so far, and consequently `processed` always lies in
`[0, 1]`. -/
theorem worked_span_tracks_extremes (full : Span) (l : List ℤ)
    (hne : l ≠ []) (hhead : l.head? = some full.begin_)
    (hin : ∀ i ∈ l, full.min_val ≤ i ∧ i ≤ full.max_val) :
    ∃ w, foldWorked full none l = some (some w) ∧
      w.min_val = l.foldl min full.begin_ ∧
      w.max_val = l.foldl max full.begin_ ∧
      0 ≤ WorkSpan.processed full (some w) ∧
      WorkSpan.processed full (some w) ≤ 1 := by
  obtain ⟨b0, rest, rfl⟩ := List.exists_cons_of_ne_nil hne
  have hb0 : b0 = full.begin_ := by simpa using hhead
  subst hb0
  have hrest : ∀ i ∈ rest, full.min_val ≤ i ∧ i ≤ full.max_val :=
    fun i hi => hin i (by simp [hi])
  have hfirst : foldWorked full none (full.begin_ :: rest)
      = foldWorked full (some ⟨full.begin_, full.begin_⟩) rest := by
    rw [foldWorked, update_worked_span,
      if_neg (by
        have h1 : full.min_val ≤ full.begin_ := min_le_left _ _
        have h2 : full.begin_ ≤ full.max_val := le_max_left _ _
        omega)]
  have hlenfull : 0 < full.len := by
    have : full.min_val ≤ full.max_val := min_le_max
    rw [Span.len]; omega
  by_cases hbe : full.begin_ ≤ full.end_
  · have hmin : full.min_val = full.begin_ := min_eq_left hbe
    have hrest' : ∀ i ∈ rest, full.begin_ ≤ i ∧ i ≤ full.max_val := by
      intro i hi; have := hrest i hi; omega
    refine ⟨⟨rest.foldl max full.begin_, full.begin_⟩, ?_, ?_, ?_, ?_, ?_⟩
    · rw [hfirst,
        foldWorked_forward full hbe rest full.begin_ le_rfl (le_max_left _ _)
          hrest']
    · have hge : full.begin_ ≤ rest.foldl max full.begin_ :=
        le_foldl_max rest full.begin_
      have : Span.min_val ⟨rest.foldl max full.begin_, full.begin_⟩
          = full.begin_ := min_eq_right hge
      rw [this, List.foldl_cons, min_self]
      exact (foldl_min_const rest full.begin_
        (fun i hi => by have := hrest i hi; omega)).symm
    · have hge : full.begin_ ≤ rest.foldl max full.begin_ :=
        le_foldl_max rest full.begin_
      have : Span.max_val ⟨rest.foldl max full.begin_, full.begin_⟩
          = rest.foldl max full.begin_ := max_eq_left hge
      rw [this, List.foldl_cons, max_self]
    · apply div_nonneg _ (by exact_mod_cast hlenfull.le)
      have hge : full.begin_ ≤ rest.foldl max full.begin_ :=
        le_foldl_max rest full.begin_
      have : 0 ≤ Span.len ⟨rest.foldl max full.begin_, full.begin_⟩ := by
        rw [Span.len,
          show Span.max_val ⟨rest.foldl max full.begin_, full.begin_⟩
            = rest.foldl max full.begin_ from max_eq_left hge,
          show Span.min_val ⟨rest.foldl max full.begin_, full.begin_⟩
            = full.begin_ from min_eq_right hge]
        omega
      exact_mod_cast this
    · rw [WorkSpan.processed]
      rw [div_le_one (by exact_mod_cast hlenfull)]
      have hub : rest.foldl max full.begin_ ≤ full.max_val :=
        foldl_max_le rest full.begin_ full.max_val (le_max_left _ _)
          (fun i hi => (hrest i hi).2)
      have hge : full.begin_ ≤ rest.foldl max full.begin_ :=
        le_foldl_max rest full.begin_
      have : Span.len ⟨rest.foldl max full.begin_, full.begin_⟩
          ≤ full.len := by
        rw [Span.len, Span.len]
        have h1 : Span.min_val ⟨rest.foldl max full.begin_, full.begin_⟩
            = full.begin_ := min_eq_right hge
        have h2 : Span.max_val ⟨rest.foldl max full.begin_, full.begin_⟩
            = rest.foldl max full.begin_ := max_eq_left hge
        rw [h1, h2, hmin]
        omega
      exact_mod_cast this
  · push_neg at hbe
    have hmax : full.max_val = full.begin_ := max_eq_left hbe.le
    have hrest' : ∀ i ∈ rest, full.min_val ≤ i ∧ i ≤ full.begin_ := by
      intro i hi; have := hrest i hi; omega
    refine ⟨⟨rest.foldl min full.begin_, full.begin_⟩, ?_, ?_, ?_, ?_, ?_⟩
    · rw [hfirst,
        foldWorked_backward full hbe.le rest full.begin_ le_rfl
          (min_le_left _ _) hrest']
    · have hle : rest.foldl min full.begin_ ≤ full.begin_ :=
        foldl_min_le rest full.begin_
      have : Span.min_val ⟨rest.foldl min full.begin_, full.begin_⟩
          = rest.foldl min full.begin_ := min_eq_left hle
      rw [this, List.foldl_cons, min_self]
    · have hle : rest.foldl min full.begin_ ≤ full.begin_ :=
        foldl_min_le rest full.begin_
      have : Span.max_val ⟨rest.foldl min full.begin_, full.begin_⟩
          = full.begin_ := max_eq_right hle
      rw [this, List.foldl_cons, max_self]
      exact (foldl_max_const rest full.begin_
        (fun i hi => by have := hrest i hi; omega)).symm
    · apply div_nonneg _ (by exact_mod_cast hlenfull.le)
      have hle : rest.foldl min full.begin_ ≤ full.begin_ :=
        foldl_min_le rest full.begin_
      have : 0 ≤ Span.len ⟨rest.foldl min full.begin_, full.begin_⟩ := by
        rw [Span.len,
          show Span.max_val ⟨rest.foldl min full.begin_, full.begin_⟩
            = full.begin_ from max_eq_right hle,
          show Span.min_val ⟨rest.foldl min full.begin_, full.begin_⟩
            = rest.foldl min full.begin_ from min_eq_left hle]
        omega
      exact_mod_cast this
    · rw [WorkSpan.processed]
      rw [div_le_one (by exact_mod_cast hlenfull)]
      have hlb : full.min_val ≤ rest.foldl min full.begin_ :=
        le_foldl_min rest full.begin_ full.min_val (min_le_left _ _)
          (fun i hi => (hrest i hi).1)
      have hle : rest.foldl min full.begin_ ≤ full.begin_ :=
        foldl_min_le rest full.begin_
      have : Span.len ⟨rest.foldl min full.begin_, full.begin_⟩
          ≤ full.len := by
        rw [Span.len, Span.len]
        have h1 : Span.min_val ⟨rest.foldl min full.begin_, full.begin_⟩
            = rest.foldl min full.begin_ := min_eq_left hle
        have h2 : Span.max_val ⟨rest.foldl min full.begin_, full.begin_⟩
            = full.begin_ := max_eq_right hle
        rw [h1, h2, hmax]
        omega
      exact_mod_cast this

theorem worked_span_tracks_extremes_witness :
    ∃ w, foldWorked ⟨0, 5⟩ none [0, 2, 1] = some (some w) ∧
      w.min_val = [0, 2, 1].foldl min (Span.mk 0 5).begin_ ∧
      w.max_val = [0, 2, 1].foldl max (Span.mk 0 5).begin_ ∧
      0 ≤ WorkSpan.processed ⟨0, 5⟩ (some w) ∧
      WorkSpan.processed ⟨0, 5⟩ (some w) ≤ 1 :=
  worked_span_tracks_extremes ⟨0, 5⟩ [0, 2, 1] (by decide) (by decide)
    (by decide)

/-! ### C5 / C6 — `FlagGroup.set` / `FlagGroup.unset` -/

theorem conflictGroup_some {α : Type} [DecidableEq α]
    (mutex : List (Finset α)) (S : Finset α) (c : Finset α)
    (h : conflictGroup mutex S = some c) :
    ∃ g ∈ mutex, c = g ∩ S ∧ 2 ≤ c.card := by
  obtain ⟨g, hg, hfg⟩ := List.exists_of_findSome?_eq_some h
  by_cases hcard : 1 < (g ∩ S).card
  · rw [if_pos hcard] at hfg
    have hc : c = g ∩ S := (Option.some_injective _ hfg).symm
    exact ⟨g, hg, hc, by rw [hc]; omega⟩
  · rw [if_neg hcard] at hfg
    exact absurd hfg (by simp)

theorem setOne_ok_conflict_free {α : Type} [DecidableEq α]
    (parents : α → List α) (mutex : List (Finset α)) (fuel : ℕ)
    (S S' : Finset α) (f : α)
    (h : setOne parents mutex fuel S f = .ok S') :
    conflictGroup mutex S' = none := by
  match fuel with
  | 0 => exact absurd h (by rw [setOne]; simp)
  | fuel + 1 =>
    rw [setOne] at h
    rcases hfold : (parents f).foldlM
        (fun T p => setOne parents mutex fuel T p) S with e | S1
    · rw [hfold] at h
      exact absurd h (by simp [Bind.bind, Except.bind])
    · rw [hfold] at h
      simp only [Bind.bind, Except.bind] at h
      rcases hconf : conflictGroup mutex (insert f S1) with _ | c
      · rw [hconf] at h
        simp only [Except.ok.injEq] at h
        rw [← h]
        exact hconf
      · rw [hconf] at h
        exact absurd h (by simp)

theorem setFold_ok_conflict_free {α : Type} [DecidableEq α]
    (parents : α → List α) (mutex : List (Finset α)) (fuel : ℕ) :
    ∀ (fs : List α) (S S' : Finset α),
    conflictGroup mutex S = none →
    fs.foldlM (fun T f => setOne parents mutex fuel T f) S = .ok S' →
    conflictGroup mutex S' = none := by
  intro fs
  induction fs with
  | nil =>
    intro S S' hS h
    rw [List.foldlM_nil] at h
    cases h
    exact hS
  | cons f fs ih =>
    intro S S' hS h
    rw [List.foldlM_cons] at h
    rcases h1 : setOne parents mutex fuel S f with e | S1
    · rw [h1] at h
      exact absurd h (by simp [Bind.bind, Except.bind])
    · rw [h1] at h
      simp only [Bind.bind, Except.bind] at h
      exact ih S1 S' (setOne_ok_conflict_free parents mutex fuel S S1 f h1) h

theorem setOne_conflict_err {α : Type} [DecidableEq α]
    (parents : α → List α) (mutex : List (Finset α)) :
    ∀ (fuel : ℕ) (S : Finset α) (f : α) (c : Finset α),
    setOne parents mutex fuel S f = .error (.conflict c) →
    ∃ g ∈ mutex, c ⊆ g ∧ 2 ≤ c.card := by
  intro fuel
  induction fuel with
  | zero =>
    intro S f c h
    rw [setOne] at h
    exact absurd h (by simp)
  | succ fuel ih =>
    have ihfold : ∀ (ps : List α) (S : Finset α) (c : Finset α),
        ps.foldlM (fun T p => setOne parents mutex fuel T p) S
          = .error (.conflict c) →
        ∃ g ∈ mutex, c ⊆ g ∧ 2 ≤ c.card := by
      intro ps
      induction ps with
      | nil =>
        intro S c h
        rw [List.foldlM_nil] at h
        exact absurd h (by simp [pure, Except.pure])
      | cons p ps ihp =>
        intro S c h
        rw [List.foldlM_cons] at h
        rcases h1 : setOne parents mutex fuel S p with e | S1
        · rw [h1] at h
          simp only [Bind.bind, Except.bind, Except.error.injEq] at h
          exact ih S p c (by rw [h1, h])
        · rw [h1] at h
          simp only [Bind.bind, Except.bind] at h
          exact ihp S1 c h
    intro S f c h
    rw [setOne] at h
    rcases hfold : (parents f).foldlM
        (fun T p => setOne parents mutex fuel T p) S with e | S1
    · rw [hfold] at h
      simp only [Bind.bind, Except.bind, Except.error.injEq] at h
      exact ihfold (parents f) S c (by rw [hfold, h])
    · rw [hfold] at h
      simp only [Bind.bind, Except.bind] at h
      rcases hconf : conflictGroup mutex (insert f S1) with _ | c'
      · rw [hconf] at h
        exact absurd h (by simp)
      · rw [hconf] at h
        simp only [Except.error.injEq, FlagErr.conflict.injEq] at h
        obtain ⟨g, hg, hceq, hcard⟩ :=
          conflictGroup_some mutex (insert f S1) c' hconf
        subst h
        exact ⟨g, hg, by rw [hceq]; exact Finset.inter_subset_left, hcard⟩

/-- C5: for every vocabulary with mutual-exclusion groups and every
conflict-free member set, a `set` call can never commit a state in which
two members of one mutual-exclusion group are simultaneously present: a
successful call leaves a conflict-free set, every failing call rolls the
member set back to exactly its pre-call value, and a mutual-exclusion
failure carries a conflict group of at least two members of one of the
vocabulary's mutex groups. -/
theorem flagGroup_set_mutex_conflict {α : Type} [DecidableEq α]
    (parents : α → List α) (mutex : List (Finset α)) (fuel : ℕ)
    (S : Finset α) (fs : List α) (S' S'' : Finset α) (e : FlagErr α)
    (c : Finset α) (hS : conflictGroup mutex S = none) :
    (FlagGroup.set parents mutex fuel S fs = .ok S' →
      conflictGroup mutex S' = none) ∧
    (FlagGroup.set parents mutex fuel S fs = .err e S'' → S'' = S) ∧
    (FlagGroup.set parents mutex fuel S fs = .err (.conflict c) S'' →
      ∃ g ∈ mutex, c ⊆ g ∧ 2 ≤ c.card) := by
  refine ⟨?_, ?_, ?_⟩
  · intro h
    rw [FlagGroup.set] at h
    rcases hfold : fs.foldlM (fun T f => setOne parents mutex fuel T f) S
      with e' | S1
    · rw [hfold] at h; exact absurd h (by simp)
    · rw [hfold] at h
      cases h
      exact setFold_ok_conflict_free parents mutex fuel fs S S' hS hfold
  · intro h
    rw [FlagGroup.set] at h
    rcases hfold : fs.foldlM (fun T f => setOne parents mutex fuel T f) S
      with e' | S1
    · rw [hfold] at h
      cases h
      rfl
    · rw [hfold] at h; exact absurd h (by simp)
  · intro h
    rw [FlagGroup.set] at h
    rcases hfold : fs.foldlM (fun T f => setOne parents mutex fuel T f) S
      with e' | S1
    · rw [hfold] at h
      have he : e' = .conflict c := by cases h; rfl
      subst he
      clear h
      -- trace the first conflict error back through the flag list
      induction fs generalizing S with
      | nil =>
        rw [List.foldlM_nil] at hfold
        exact absurd hfold (by simp [pure, Except.pure])
      | cons f fs ihf =>
        rw [List.foldlM_cons] at hfold
        rcases h1 : setOne parents mutex fuel S f with e1 | S1
        · rw [h1] at hfold
          simp only [Bind.bind, Except.bind, Except.error.injEq] at hfold
          exact setOne_conflict_err parents mutex fuel S f c
            (by rw [h1, hfold])
        · rw [h1] at hfold
          simp only [Bind.bind, Except.bind] at hfold
          exact ihf S1 (setOne_ok_conflict_free parents mutex fuel S S1 f h1)
            hfold
    · rw [hfold] at h; exact absurd h (by simp)

theorem flagGroup_set_mutex_conflict_witness :
    FlagGroup.set (fun _ : ℕ => []) [({0, 1} : Finset ℕ)] 2 {0} [1]
      = .err (.conflict {0, 1}) {0} ∧
    ({0} : Finset ℕ) = {0} ∧
    (∃ g ∈ [({0, 1} : Finset ℕ)], ({0, 1} : Finset ℕ) ⊆ g
      ∧ 2 ≤ ({0, 1} : Finset ℕ).card) := by
  have happ := flagGroup_set_mutex_conflict (fun _ : ℕ => [])
    [({0, 1} : Finset ℕ)] 2 {0} [1] ∅ {0} (.conflict {0, 1}) {0, 1}
    (by decide)
  exact ⟨by decide, happ.2.1 (by decide), happ.2.2 (by decide)⟩

/-- C6 (counterexample): on the member set `{0}` (with a trivial
vocabulary), `set` of the already-present member `0` succeeds and leaves
`{0}`, but the following `unset` removes it, giving `∅` — the prior
member set is not restored. -/
theorem flagGroup_set_unset_not_identity :
    FlagGroup.set (fun _ : ℕ => []) [] 2 {0} [0] = .ok {0} ∧
    FlagGroup.unset (fun _ : ℕ => []) 2 {0} [0] = .ok ∅ ∧
    (∅ : Finset ℕ) ≠ {0} := by
  refine ⟨by decide, ?_, by decide⟩
  have h1 : unsetOne (fun _ : ℕ => []) 2 {0} 0 = .ok ∅ := by
    rw [unsetOne]
    have hch : (({0} : Finset ℕ).erase 0).filter
        (fun g => 0 ∈ (fun _ : ℕ => ([] : List ℕ)) g) = ∅ := by decide
    rw [hch, Finset.sort_empty, List.foldlM_nil]
    rfl
  rw [FlagGroup.unset, List.foldlM_cons, h1]
  rfl

theorem setOne_present_noop {α : Type} [DecidableEq α]
    (parents : α → List α) (mutex : List (Finset α)) :
    ∀ (fuel : ℕ) (S : Finset α) (p : α),
    (∀ g ∈ S, ∀ q ∈ parents g, q ∈ S) →
    conflictGroup mutex S = none → p ∈ S →
    setOne parents mutex fuel S p = .ok S ∨
    setOne parents mutex fuel S p = .error .fuel := by
  intro fuel
  induction fuel with
  | zero => intro S p _ _ _; right; rw [setOne]
  | succ fuel ih =>
    intro S p hcl hcf hp
    have hfold : ∀ (l : List α), (∀ q ∈ l, q ∈ S) →
        l.foldlM (fun T q => setOne parents mutex fuel T q) S = .ok S ∨
        l.foldlM (fun T q => setOne parents mutex fuel T q) S
          = .error .fuel := by
      intro l
      induction l with
      | nil => intro _; left; rw [List.foldlM_nil]; rfl
      | cons q l ihl =>
        intro hq
        rw [List.foldlM_cons]
        rcases ih S q hcl hcf (hq q (by simp)) with h | h
        · rw [h]
          simpa only [Bind.bind, Except.bind] using
            ihl (fun r hr => hq r (by simp [hr]))
        · rw [h]
          right
          rfl
    rw [setOne]
    rcases hfold (parents p) (fun q hq => hcl p hp q hq) with h | h
    · rw [h]
      simp only [Bind.bind, Except.bind]
      rw [Finset.insert_eq_self.2 hp, hcf]
      left
      rfl
    · rw [h]
      right
      rfl

/-- C6 (amended): `set(f)` followed by `unset(f)` restores the prior
member set provided `f` was not already present, every parent of `f` was
present (so no parents are auto-added), no present member lists `f` as a
parent (so `unset` cascades to nothing), the commit does not hit a
mutual-exclusion conflict, and the recursion terminates (as it does on
the cycle-free vocabularies `register` admits).  Without these provisos
the round-trip does not restore the set — see the counterexample. -/
theorem flagGroup_set_unset_roundtrip {α : Type} [DecidableEq α]
    [LinearOrder α] (parents : α → List α) (mutex : List (Finset α))
    (fuel fuel' : ℕ) (S : Finset α) (f : α)
    (hcl : ∀ g ∈ S, ∀ q ∈ parents g, q ∈ S)
    (hcf : conflictGroup mutex S = none)
    (hnf : f ∉ S)
    (hpar : ∀ p ∈ parents f, p ∈ S)
    (hchild : ∀ g ∈ S, f ∉ parents g)
    (hcf' : conflictGroup mutex (insert f S) = none)
    (hfuel' : 1 ≤ fuel')
    (hnofuel : FlagGroup.set parents mutex fuel S [f] ≠ .err .fuel S) :
    FlagGroup.set parents mutex fuel S [f] = .ok (insert f S) ∧
    FlagGroup.unset parents fuel' (insert f S) [f] = .ok S := by
  have hset1 : setOne parents mutex fuel S f = .ok (insert f S) ∨
      setOne parents mutex fuel S f = .error .fuel := by
    match fuel with
    | 0 => right; rw [setOne]
    | fuel + 1 =>
      have hfold : ∀ (l : List α), (∀ q ∈ l, q ∈ S) →
          l.foldlM (fun T q => setOne parents mutex fuel T q) S = .ok S ∨
          l.foldlM (fun T q => setOne parents mutex fuel T q) S
            = .error .fuel := by
        intro l
        induction l with
        | nil => intro _; left; rw [List.foldlM_nil]; rfl
        | cons q l ihl =>
          intro hq
          rw [List.foldlM_cons]
          rcases setOne_present_noop parents mutex fuel S q hcl hcf
            (hq q (by simp)) with h | h
          · rw [h]
            simpa only [Bind.bind, Except.bind] using
              ihl (fun r hr => hq r (by simp [hr]))
          · rw [h]
            right
            rfl
      rw [setOne]
      rcases hfold (parents f) hpar with h | h
      · rw [h]
        simp only [Bind.bind, Except.bind]
        rw [hcf']
        left
        rfl
      · rw [h]
        right
        rfl
  have hsetcall : FlagGroup.set parents mutex fuel S [f]
      = .ok (insert f S) := by
    rcases hset1 with h | h
    · rw [FlagGroup.set, List.foldlM_cons, h]
      simp only [Bind.bind, Except.bind, List.foldlM_nil]
      rfl
    · exact absurd (by rw [FlagGroup.set, List.foldlM_cons, h]; rfl) hnofuel
  refine ⟨hsetcall, ?_⟩
  match fuel', hfuel' with
  | fuel' + 1, _ =>
    have herase : (insert f S).erase f = S := Finset.erase_insert hnf
    have h1 : unsetOne parents (fuel' + 1) (insert f S) f = .ok S := by
      rw [unsetOne]
      have hch : ((insert f S).erase f).filter (fun g => f ∈ parents g)
          = ∅ := by
        rw [herase, Finset.filter_eq_empty_iff]
        exact fun g hg => hchild g hg
      rw [hch, Finset.sort_empty, List.foldlM_nil]
      show Except.ok ((insert f S).erase f) = _
      rw [herase]
    rw [FlagGroup.unset, List.foldlM_cons, h1]
    rfl

theorem flagGroup_set_unset_roundtrip_witness :
    FlagGroup.set (fun n : ℕ => if n = 1 then [0] else []) [] 3 {0} [1]
      = .ok (insert 1 {0}) ∧
    FlagGroup.unset (fun n : ℕ => if n = 1 then [0] else []) 2
      (insert 1 {0}) [1] = .ok {0} :=
  flagGroup_set_unset_roundtrip (fun n : ℕ => if n = 1 then [0] else [])
    [] 3 2 {0} 1 (by decide) (by decide) (by decide) (by decide)
    (by decide) (by decide) (by decide) (by decide)

/-! ### C1 — coverage of the rejection-driven traversal -/

/-- C1 (counterexample): for the job over `[1, 6]` with rejection set
`{2, 3, 4, 6}`, the run terminates but the acceptable index 5 is never
probed or marked accepted: the forward leap from 2 probes 3, 4, 6, then
jumps to 8, raising `IndexError` with no reverse flag, which ends the
job. -/
theorem indexJob_misses_acceptable_index :
    runOk cfgC1 25 = true ∧
    cfgC1.reject 5 = false ∧ (1 : ℤ) ≤ 5 ∧ (5 : ℤ) ≤ 6 ∧
    (runTrace cfgC1 25).filter (fun ev => ev.accepted && ev.idx == 5)
      = [] := by
  refine ⟨by decide, by decide, by decide, by decide, by decide⟩

theorem update_ok_bounds (full : Span) (ws : Option Span) (i : ℤ) (w : Span)
    (h : update_worked_span full ws i = .ok w) :
    full.min_val ≤ i ∧ i ≤ full.max_val := by
  rw [update_worked_span.eq_def] at h
  by_cases hb : i < full.min_val ∨ full.max_val < i
  · rw [if_pos hb] at h
    exact absurd h (by simp)
  · push_neg at hb
    exact hb

theorem stepFn_event_bounds (cfg : JobCfg) (m : Mode) (σ : JobState) :
    ∀ ev ∈ (stepFn cfg m σ).1,
    (cfg.full.min_val ≤ ev.idx ∧ ev.idx ≤ cfg.full.max_val) ∧
    ev.accepted = !cfg.reject ev.idx := by
  intro ev hev
  cases m with
  | enterStepping =>
    rw [stepFn] at hev
    by_cases h0 : σ.span.step = 0
    · rw [if_pos h0] at hev
      rcases hupd : update_worked_span cfg.full σ.worked σ.span.begin_
        with _ | w
      · rw [hupd] at hev
        simp at hev
      · rw [hupd] at hev
        simp only [List.mem_singleton] at hev
        subst hev
        exact ⟨update_ok_bounds _ _ _ _ hupd, rfl⟩
    · rw [if_neg h0] at hev
      simp at hev
  | stepL next =>
    rw [stepFn] at hev
    rcases hupd : update_worked_span cfg.full σ.worked next with _ | w
    · rw [hupd] at hev
      simp at hev
    · rw [hupd] at hev
      by_cases hr : cfg.reject next
      · simp only [hr, Bool.not_true, Bool.false_eq_true, if_false,
          List.mem_singleton] at hev
        subst hev
        exact ⟨update_ok_bounds _ _ _ _ hupd, by simp [mkEv, hr]⟩
      · simp only [Bool.not_eq_true'] at hr
        simp only [hr, Bool.not_false, if_true, List.mem_singleton] at hev
        subst hev
        exact ⟨update_ok_bounds _ _ _ _ hupd, by simp [mkEv, hr]⟩
  | enterLeaping =>
    rw [stepFn] at hev
    simp at hev
  | leapL base j =>
    rw [stepFn] at hev
    rcases hupd : update_worked_span cfg.full σ.worked
      (jumperAt base (signOf σ.span.step) j) with _ | w
    · rw [hupd] at hev
      simp at hev
    · rw [hupd] at hev
      by_cases hr : cfg.reject (jumperAt base (signOf σ.span.step) j)
      · simp only [hr, Bool.not_true, Bool.false_eq_true, if_false,
          List.mem_singleton] at hev
        subst hev
        exact ⟨update_ok_bounds _ _ _ _ hupd, by simp [mkEv, hr]⟩
      · simp only [Bool.not_eq_true'] at hr
        simp only [hr, Bool.not_false, if_true, List.mem_singleton] at hev
        subst hev
        exact ⟨update_ok_bounds _ _ _ _ hupd, by simp [mkEv, hr]⟩

theorem execJob_events (cfg : JobCfg) (P : Ev → Prop)
    (hstep : ∀ m σ, ∀ ev ∈ (stepFn cfg m σ).1, P ev) :
    ∀ (fuel : ℕ) (m : Mode) (σ : JobState) (tr : List Ev) (res : RunRes),
    (∀ ev ∈ tr, P ev) → execJob cfg fuel m σ tr = some res →
    ∀ ev ∈ res.trace, P ev := by
  intro fuel
  induction fuel with
  | zero =>
    intro m σ tr res _ h
    rw [execJob] at h
    cases h
  | succ fuel ih =>
    intro m σ tr res htr h
    rw [execJob] at h
    rcases hs : stepFn cfg m σ with ⟨evs, r⟩
    have hall : ∀ ev ∈ tr ++ evs, P ev := by
      intro ev hev
      rcases List.mem_append.1 hev with h' | h'
      · exact htr ev h'
      · exact hstep m σ ev (by rw [hs]; exact h')
    rw [hs] at h
    cases r with
    | cont m' σ' => exact ih m' σ' (tr ++ evs) res hall h
    | stop σ' =>
      cases h
      exact hall
    | crash =>
      cases h
      exact hall

/-- C1 (amended): in any `IndexJob.run`, every index passed to a handler
lies within the closed interval `[min(begin, end), max(begin, end)]`
(`_set_current` bounds-checks before `__safe_handle` invokes handlers),
and a probe is marked accepted exactly when the handler does not signal
skip, i.e. when its index is outside the rejection set R.  The original
claim's exhaustiveness ("every index not in R is accepted, exactly
once") is false — see the counterexample. -/
theorem indexJob_probe_bounds (cfg : JobCfg) (fuel : ℕ) :
    ∀ ev ∈ runTrace cfg fuel,
    (min cfg.begin_ cfg.end_ ≤ ev.idx ∧ ev.idx ≤ max cfg.begin_ cfg.end_)
    ∧ ev.accepted = !cfg.reject ev.idx := by
  intro ev hev
  rw [runTrace] at hev
  rcases hrun : IndexJob.run cfg fuel with _ | res
  · rw [hrun] at hev
    simp at hev
  · rw [hrun] at hev
    exact execJob_events cfg
      (fun e => (cfg.full.min_val ≤ e.idx ∧ e.idx ≤ cfg.full.max_val)
        ∧ e.accepted = !cfg.reject e.idx)
      (fun m σ => stepFn_event_bounds cfg m σ)
      fuel .enterStepping (initState cfg) [] res (by simp) hrun ev hev

theorem indexJob_probe_bounds_witness :
    Ev.mk 1 true false false none 6 ∈ runTrace cfgC1 25 ∧
    ((min cfgC1.begin_ cfgC1.end_ ≤ (Ev.mk 1 true false false none 6).idx
      ∧ (Ev.mk 1 true false false none 6).idx ≤ max cfgC1.begin_ cfgC1.end_)
    ∧ (Ev.mk 1 true false false none 6).accepted
        = !cfgC1.reject (Ev.mk 1 true false false none 6).idx) :=
  ⟨by decide, indexJob_probe_bounds cfgC1 25 _ (by decide)⟩

/-! ### C4 — `first_unaccepted_value` and the reverse bound -/

/-- C4 (counterexample): in the run over `[1, 8]` with rejection set
`{3, 4, 5, 6}`, the stepping→leaping switch at 3 sets
`first_unaccepted_value = 3`, yet the terminating run contains a
reverse-phase probe at index 1, which lies beyond 3 in the reverse
direction: reverse probes are bounds-checked only against the job's full
range, not against `first_unaccepted_value`. -/
theorem indexJob_reverse_crosses_first_unaccepted :
    runOk cfgC4 30 = true ∧
    (runTrace cfgC4 30).any
      (fun ev => ev.reverse && (ev.firstUnacc == some 3)
        && decide (ev.idx < 3)) = true := by
  exact ⟨by decide, by decide⟩

theorem stepExit_inv (σ : JobState) (hie : Bool) (m' : Mode)
    (σ' : JobState) (h : stepExit σ hie = .cont m' σ') :
    (σ'.leaping = true → σ'.firstUnacc.isSome) ∧
    (σ'.reverse = true → σ'.firstUnacc = some σ'.span.end_) ∧
    ((m' = .enterLeaping ∨ ∃ b j, m' = .leapL b j) → σ'.leaping = true) := by
  rw [stepExit] at h
  by_cases hc1 : hie = true ∧ σ.reverse = false
  · rw [if_pos hc1] at h
    cases h
  · rw [if_neg hc1] at h
    by_cases hc2 : σ.reverse = true
    · rw [if_pos hc2] at h
      rcases hp : prepare_stepping σ with _ | σ''
      · rw [hp] at h
        cases h
      · rw [hp] at h
        cases h
        rw [prepare_stepping] at hp
        rcases hbp : σ.bpSpan with _ | bp <;> rw [hbp] at hp
        · cases hp
        · rcases hbc : σ.bpCurrent with _ | bpc <;> rw [hbc] at hp
          · cases hp
          · cases hp
            refine ⟨by intro hx; simp at hx, by intro hx; simp at hx, ?_⟩
            rintro (hm | ⟨b, j, hm⟩) <;> cases hm
    · rw [if_neg hc2] at h
      cases h
      refine ⟨fun _ => by simp [prepare_leaping], ?_, fun _ => rfl⟩
      intro hx
      rw [prepare_leaping] at hx
      simp only [Bool.not_eq_true] at hc2
      simp [hc2] at hx

theorem leapExitError_inv (σ : JobState) (m' : Mode) (σ' : JobState)
    (h : leapExitError σ = .cont m' σ') :
    (σ'.leaping = true → σ'.firstUnacc.isSome) ∧
    (σ'.reverse = true → σ'.firstUnacc = some σ'.span.end_) ∧
    ((m' = .enterLeaping ∨ ∃ b j, m' = .leapL b j) → σ'.leaping = true) := by
  rw [leapExitError] at h
  by_cases hc : σ.reverse = false
  · rw [if_pos hc] at h
    cases h
  · rw [if_neg hc] at h
    rcases hp : prepare_stepping σ with _ | σ''
    · rw [hp] at h
      cases h
    · rw [hp] at h
      cases h
      rw [prepare_stepping] at hp
      rcases hbp : σ.bpSpan with _ | bp <;> rw [hbp] at hp
      · cases hp
      · rcases hbc : σ.bpCurrent with _ | bpc <;> rw [hbc] at hp
        · cases hp
        · cases hp
          refine ⟨by intro hx; simp at hx, by intro hx; simp at hx, ?_⟩
          rintro (hm | ⟨b, j, hm⟩) <;> cases hm

theorem leapExitAccept_inv (σ : JobState)
    (h1 : σ.leaping = true → σ.firstUnacc.isSome)
    (h2 : σ.reverse = true → σ.firstUnacc = some σ.span.end_)
    (hlp : σ.leaping = true) (m' : Mode) (σ' : JobState)
    (h : leapExitAccept σ = .cont m' σ') :
    (σ'.leaping = true → σ'.firstUnacc.isSome) ∧
    (σ'.reverse = true → σ'.firstUnacc = some σ'.span.end_) ∧
    ((m' = .enterLeaping ∨ ∃ b j, m' = .leapL b j) → σ'.leaping = true) := by
  rw [leapExitAccept] at h
  by_cases hc : σ.reverse = true
  · rw [if_pos hc] at h
    cases h
    refine ⟨by intro hx; simp [prepare_reverse_stepping] at hx, ?_, ?_⟩
    · intro _
      simp only [prepare_reverse_stepping]
      exact h2 hc
    · rintro (hm | ⟨b, j, hm⟩) <;> cases hm
  · rw [if_neg hc] at h
    cases h
    obtain ⟨v, hv⟩ := Option.isSome_iff_exists.1 (h1 hlp)
    refine ⟨?_, ?_, fun _ => by simp [prepare_reverse_leaping, hlp]⟩
    · intro _
      simp [prepare_reverse_leaping, hv]
    · intro _
      simp [prepare_reverse_leaping, hv]

theorem stepFn_inv (cfg : JobCfg) (m : Mode) (σ : JobState)
    (h1 : σ.leaping = true → σ.firstUnacc.isSome)
    (h2 : σ.reverse = true → σ.firstUnacc = some σ.span.end_)
    (h3 : (m = .enterLeaping ∨ ∃ b j, m = .leapL b j) → σ.leaping = true) :
    (∀ ev ∈ (stepFn cfg m σ).1,
      ev.reverse = true → ev.firstUnacc = some ev.spanEnd) ∧
    (∀ m' σ', (stepFn cfg m σ).2 = .cont m' σ' →
      ((σ'.leaping = true → σ'.firstUnacc.isSome) ∧
       (σ'.reverse = true → σ'.firstUnacc = some σ'.span.end_) ∧
       ((m' = .enterLeaping ∨ ∃ b j, m' = .leapL b j) →
         σ'.leaping = true))) := by
  cases m with
  | enterStepping =>
    rw [stepFn]
    by_cases h0 : σ.span.step = 0
    · rw [if_pos h0]
      rcases hupd : update_worked_span cfg.full σ.worked σ.span.begin_
        with _ | w
      · exact ⟨by simp, fun m' σ' h => stepExit_inv σ true m' σ' h⟩
      · refine ⟨?_, ?_⟩
        · intro ev hev
          simp only [List.mem_singleton] at hev
          subst hev
          intro hrev
          simp only [mkEv] at hrev ⊢
          exact h2 hrev
        · intro m' σ' h
          exact stepExit_inv _ false m' σ' h
    · rw [if_neg h0]
      refine ⟨by simp, ?_⟩
      intro m' σ' h
      cases h
      exact ⟨h1, h2, by rintro (hm | ⟨b, j, hm⟩) <;> cases hm⟩
  | stepL next =>
    rw [stepFn]
    rcases hupd : update_worked_span cfg.full σ.worked next with _ | w
    · exact ⟨by simp, fun m' σ' h => stepExit_inv σ true m' σ' h⟩
    · by_cases hr : cfg.reject next
      · simp only [hr, Bool.not_true, Bool.false_eq_true, if_false]
        refine ⟨?_, fun m' σ' h => stepExit_inv _ false m' σ' h⟩
        intro ev hev
        simp only [List.mem_singleton] at hev
        subst hev
        intro hrev
        simp only [mkEv] at hrev ⊢
        exact h2 hrev
      · simp only [Bool.not_eq_true'] at hr
        simp only [hr, Bool.not_false, if_true]
        refine ⟨?_, ?_⟩
        · intro ev hev
          simp only [List.mem_singleton] at hev
          subst hev
          intro hrev
          simp only [mkEv] at hrev ⊢
          exact h2 hrev
        · intro m' σ' h
          cases h
          exact ⟨h1, h2, by rintro (hm | ⟨b, j, hm⟩) <;> cases hm⟩
  | enterLeaping =>
    rw [stepFn]
    refine ⟨by simp, ?_⟩
    intro m' σ' h
    cases h
    exact ⟨h1, h2, fun _ => h3 (Or.inl rfl)⟩
  | leapL base j =>
    rw [stepFn]
    have hlp : σ.leaping = true := h3 (Or.inr ⟨base, j, rfl⟩)
    rcases hupd : update_worked_span cfg.full σ.worked
      (jumperAt base (signOf σ.span.step) j) with _ | w
    · exact ⟨by simp, fun m' σ' h => leapExitError_inv σ m' σ' h⟩
    · by_cases hr : cfg.reject (jumperAt base (signOf σ.span.step) j)
      · simp only [hr, Bool.not_true, Bool.false_eq_true, if_false]
        refine ⟨?_, ?_⟩
        · intro ev hev
          simp only [List.mem_singleton] at hev
          subst hev
          intro hrev
          simp only [mkEv] at hrev ⊢
          exact h2 hrev
        · intro m' σ' h
          cases h
          exact ⟨h1, h2, fun _ => hlp⟩
      · simp only [Bool.not_eq_true'] at hr
        simp only [hr, Bool.not_false, if_true]
        refine ⟨?_, ?_⟩
        · intro ev hev
          simp only [List.mem_singleton] at hev
          subst hev
          intro hrev
          simp only [mkEv] at hrev ⊢
          exact h2 hrev
        · intro m' σ' h
          refine leapExitAccept_inv _ ?_ ?_ ?_ m' σ' h
          · exact h1
          · exact h2
          · exact hlp

theorem execJob_rev_inv (cfg : JobCfg) :
    ∀ (fuel : ℕ) (m : Mode) (σ : JobState) (tr : List Ev) (res : RunRes),
    (σ.leaping = true → σ.firstUnacc.isSome) →
    (σ.reverse = true → σ.firstUnacc = some σ.span.end_) →
    ((m = .enterLeaping ∨ ∃ b j, m = .leapL b j) → σ.leaping = true) →
    (∀ ev ∈ tr, ev.reverse = true → ev.firstUnacc = some ev.spanEnd) →
    execJob cfg fuel m σ tr = some res →
    ∀ ev ∈ res.trace, ev.reverse = true → ev.firstUnacc = some ev.spanEnd := by
  intro fuel
  induction fuel with
  | zero =>
    intro m σ tr res _ _ _ _ h
    rw [execJob] at h
    cases h
  | succ fuel ih =>
    intro m σ tr res h1 h2 h3 htr h
    rw [execJob] at h
    rcases hs : stepFn cfg m σ with ⟨evs, r⟩
    have hinv := stepFn_inv cfg m σ h1 h2 h3
    have hall : ∀ ev ∈ tr ++ evs,
        ev.reverse = true → ev.firstUnacc = some ev.spanEnd := by
      intro ev hev
      rcases List.mem_append.1 hev with h' | h'
      · exact htr ev h'
      · exact hinv.1 ev (by rw [hs]; exact h')
    rw [hs] at h
    cases r with
    | cont m' σ' =>
      have := hinv.2 m' σ' (by rw [hs])
      exact ih m' σ' (tr ++ evs) res this.1 this.2.1 this.2.2 hall h
    | stop σ' =>
      cases h
      exact hall
    | crash =>
      cases h
      exact hall

theorem stepExit_stateOf_leaping (σ : JobState) (hie : Bool)
    (σ' : JobState) (hl : σ.leaping = false)
    (h : (stepExit σ hie).stateOf = some σ') (hl' : σ'.leaping = true) :
    σ'.firstUnacc = some σ'.current := by
  rw [stepExit] at h
  by_cases hc1 : hie = true ∧ σ.reverse = false
  · rw [if_pos hc1] at h
    rw [StepRes.stateOf] at h
    cases h
    rw [hl] at hl'
    cases hl'
  · rw [if_neg hc1] at h
    by_cases hc2 : σ.reverse = true
    · rw [if_pos hc2] at h
      rcases hp : prepare_stepping σ with _ | σ'' <;> rw [hp] at h
      · rw [StepRes.stateOf] at h
        cases h
      · rw [StepRes.stateOf] at h
        cases h
        rw [prepare_stepping] at hp
        rcases hbp : σ.bpSpan with _ | bp <;> rw [hbp] at hp
        · cases hp
        · rcases hbc : σ.bpCurrent with _ | bpc <;> rw [hbc] at hp
          · cases hp
          · cases hp
            simp at hl'
    · rw [if_neg hc2] at h
      rw [StepRes.stateOf] at h
      cases h
      simp [prepare_leaping]

theorem leapExitError_stateOf_leaping (σ : JobState) (σ' : JobState)
    (hl : σ.leaping = false)
    (h : (leapExitError σ).stateOf = some σ') (hl' : σ'.leaping = true) :
    σ'.firstUnacc = some σ'.current := by
  rw [leapExitError] at h
  by_cases hc : σ.reverse = false
  · rw [if_pos hc] at h
    rw [StepRes.stateOf] at h
    cases h
    rw [hl] at hl'
    cases hl'
  · rw [if_neg hc] at h
    rcases hp : prepare_stepping σ with _ | σ'' <;> rw [hp] at h
    · rw [StepRes.stateOf] at h
      cases h
    · rw [StepRes.stateOf] at h
      cases h
      rw [prepare_stepping] at hp
      rcases hbp : σ.bpSpan with _ | bp <;> rw [hbp] at hp
      · cases hp
      · rcases hbc : σ.bpCurrent with _ | bpc <;> rw [hbc] at hp
        · cases hp
        · cases hp
          simp at hl'

theorem leapExitAccept_stateOf_leaping (σ : JobState) (σ' : JobState)
    (hl : σ.leaping = false)
    (h : (leapExitAccept σ).stateOf = some σ') (hl' : σ'.leaping = true) :
    σ'.firstUnacc = some σ'.current := by
  rw [leapExitAccept] at h
  by_cases hc : σ.reverse = true
  · rw [if_pos hc] at h
    rw [StepRes.stateOf] at h
    cases h
    simp [prepare_reverse_stepping] at hl'
  · rw [if_neg hc] at h
    rw [StepRes.stateOf] at h
    cases h
    simp only [prepare_reverse_leaping] at hl'
    rw [hl] at hl'
    cases hl'

theorem stepFn_switch_sets_first_unaccepted (cfg : JobCfg) (m : Mode)
    (σ σ' : JobState) (hl : σ.leaping = false)
    (h : (stepFn cfg m σ).2.stateOf = some σ') (hl' : σ'.leaping = true) :
    σ'.firstUnacc = some σ'.current := by
  cases m with
  | enterStepping =>
    rw [stepFn] at h
    by_cases h0 : σ.span.step = 0
    · rw [if_pos h0] at h
      rcases hupd : update_worked_span cfg.full σ.worked σ.span.begin_
        with _ | w <;> rw [hupd] at h <;> dsimp only at h
      · exact stepExit_stateOf_leaping σ true σ' hl h hl'
      · refine stepExit_stateOf_leaping _ false σ' ?_ h hl'
        exact hl
    · rw [if_neg h0] at h
      rw [StepRes.stateOf] at h
      cases h
      rw [hl] at hl'
      cases hl'
  | stepL next =>
    rw [stepFn] at h
    rcases hupd : update_worked_span cfg.full σ.worked next with _ | w <;>
      rw [hupd] at h <;> dsimp only at h
    · exact stepExit_stateOf_leaping σ true σ' hl h hl'
    · by_cases hr : cfg.reject next
      · simp only [hr, Bool.not_true, Bool.false_eq_true, if_false] at h
        refine stepExit_stateOf_leaping _ false σ' ?_ h hl'
        exact hl
      · simp only [Bool.not_eq_true'] at hr
        simp only [hr, Bool.not_false, if_true] at h
        rw [StepRes.stateOf] at h
        cases h
        rw [hl] at hl'
        cases hl'
  | enterLeaping =>
    rw [stepFn] at h
    rw [StepRes.stateOf] at h
    cases h
    rw [hl] at hl'
    cases hl'
  | leapL base j =>
    rw [stepFn] at h
    rcases hupd : update_worked_span cfg.full σ.worked
      (jumperAt base (signOf σ.span.step) j) with _ | w <;>
      rw [hupd] at h <;> dsimp only at h
    · exact leapExitError_stateOf_leaping σ σ' hl h hl'
    · by_cases hr : cfg.reject (jumperAt base (signOf σ.span.step) j)
      · simp only [hr, Bool.not_true, Bool.false_eq_true, if_false] at h
        rw [StepRes.stateOf] at h
        cases h
        rw [hl] at hl'
        cases hl'
      · simp only [Bool.not_eq_true'] at hr
        simp only [hr, Bool.not_false, if_true] at h
        refine leapExitAccept_stateOf_leaping _ σ' ?_ h hl'
        exact hl

/-- C4 (amended): whenever an `IndexJob` switches from stepping to
leaping, `first_unaccepted_value` is set to the index that was current
at the switch, and throughout every reverse phase the reversed
`job_span` records that value as its `end` bound; however, probes during
the reverse phases are bounds-checked only against the job's full range,
so a reverse leap can probe indices beyond `first_unaccepted_value` —
see the counterexample. -/
theorem indexJob_first_unaccepted_records_bound :
    (∀ (cfg : JobCfg) (fuel : ℕ), ∀ ev ∈ runTrace cfg fuel,
      ev.reverse = true → ev.firstUnacc = some ev.spanEnd) ∧
    (∀ (cfg : JobCfg) (m : Mode) (σ σ' : JobState), σ.leaping = false →
      (stepFn cfg m σ).2.stateOf = some σ' → σ'.leaping = true →
      σ'.firstUnacc = some σ'.current) := by
  constructor
  · intro cfg fuel ev hev
    rw [runTrace] at hev
    rcases hrun : IndexJob.run cfg fuel with _ | res
    · rw [hrun] at hev
      simp at hev
    · rw [hrun] at hev
      refine execJob_rev_inv cfg fuel .enterStepping (initState cfg) [] res
        ?_ ?_ ?_ (by simp) hrun ev hev
      · intro hx
        simp [initState] at hx
      · intro hx
        simp [initState] at hx
      · rintro (hm | ⟨b, j, hm⟩) <;> cases hm
  · exact stepFn_switch_sets_first_unaccepted

theorem indexJob_first_unaccepted_records_bound_witness :
    (Ev.mk 6 false true true (some 3) 3 ∈ runTrace cfgC4 30 ∧
      (Ev.mk 6 false true true (some 3) 3).firstUnacc
        = some (Ev.mk 6 false true true (some 3) 3).spanEnd) ∧
    (stepStateW.leaping = false ∧
      (stepFn cfgC4 (.stepL 3) stepStateW).2.stateOf = some stepPostW ∧
      stepPostW.leaping = true ∧
      stepPostW.firstUnacc = some stepPostW.current) :=
  ⟨⟨by decide,
    indexJob_first_unaccepted_records_bound.1 cfgC4 30 _ (by decide)
      (by decide)⟩,
   ⟨by decide, by decide, by decide,
    indexJob_first_unaccepted_records_bound.2 cfgC4 (.stepL 3) stepStateW
      stepPostW (by decide) (by decide) (by decide)⟩⟩

/-! ### C2 — a never-rejecting handler sees exactly the arithmetic range -/

theorem update_in_range_ok (full : Span) (ws : Option Span) (i : ℤ)
    (h1 : full.min_val ≤ i) (h2 : i ≤ full.max_val) :
    ∃ w, update_worked_span full ws i = .ok w := by
  rw [update_worked_span.eq_def, if_neg (by omega)]
  rcases ws with _ | v
  · exact ⟨_, rfl⟩
  · dsimp only
    by_cases hc : v.contain i
    · rw [if_pos hc]
      exact ⟨_, rfl⟩
    · rw [if_neg hc]
      by_cases hb : i < v.begin_ ∨ i > v.begin_
      · rw [if_pos hb]
        exact ⟨_, rfl⟩
      · rw [if_neg hb]
        exact ⟨_, rfl⟩

theorem execJob_clean_step (b e s : ℤ) :
    ∀ (count fuel : ℕ) (c : ℤ) (σ : JobState) (tr : List Ev),
    σ.span = ⟨b, e, s⟩ → σ.leaping = false → σ.reverse = false →
    σ.firstUnacc = none →
    (∀ j : ℕ, j < count →
      min b e ≤ c + (j : ℤ) * s ∧ c + (j : ℤ) * s ≤ max b e) →
    ¬(min b e ≤ c + (count : ℤ) * s ∧ c + (count : ℤ) * s ≤ max b e) →
    count + 1 ≤ fuel →
    ∃ σf, execJob ⟨b, e, s, fun _ => false⟩ fuel (.stepL c) σ tr
      = some (.ok (tr ++ (List.range count).map
          (fun k : ℕ => Ev.mk (c + (k : ℤ) * s) true false false none e))
        σf) := by
  intro count
  induction count with
  | zero =>
    intro fuel c σ tr hspan hlp hrev hfu hin hout hfuel
    match fuel, hfuel with
    | fuel + 1, _ =>
      refine ⟨σ, ?_⟩
      rw [execJob]
      have hupd : update_worked_span (JobCfg.mk b e s (fun _ => false)).full
          σ.worked c = .indexError := by
        rw [update_worked_span.eq_def, if_pos]
        show c < min b e ∨ max b e < c
        simp only [Nat.cast_zero, zero_mul, add_zero] at hout
        omega
      rw [stepFn, hupd]
      dsimp only
      rw [stepExit, if_pos ⟨rfl, hrev⟩]
      simp
  | succ count ih =>
    intro fuel c σ tr hspan hlp hrev hfu hin hout hfuel
    match fuel, hfuel with
    | fuel + 1, _ =>
      have hc0 : min b e ≤ c ∧ c ≤ max b e := by
        have := hin 0 (by omega)
        simpa using this
      obtain ⟨w, hupd⟩ := update_in_range_ok
        (JobCfg.mk b e s (fun _ => false)).full σ.worked c hc0.1 hc0.2
      have hstep : stepFn ⟨b, e, s, fun _ => false⟩ (.stepL c) σ
          = ([Ev.mk c true false false none e],
             .cont (.stepL (c + s))
               { σ with worked := some w, current := c }) := by
        rw [stepFn, hupd]
        simp only [mkEv, Bool.not_false, if_true, hspan, hlp, hrev, hfu]
      rw [execJob, hstep]
      dsimp only
      obtain ⟨σf, hrec⟩ := ih fuel (c + s)
        { σ with worked := some w, current := c }
        (tr ++ [Ev.mk c true false false none e])
        (by simp [hspan]) (by simp [hlp]) (by simp [hrev]) (by simp [hfu])
        (by
          intro j hj
          have := hin (j + 1) (by omega)
          push_cast at this ⊢
          constructor <;> nlinarith [this.1, this.2])
        (by
          intro hcontra
          apply hout
          push_cast at hcontra ⊢
          constructor <;> nlinarith [hcontra.1, hcontra.2])
        (by omega)
      rw [hrec]
      refine ⟨σf, ?_⟩
      congr 2
      rw [List.range_succ_eq_map, List.map_cons, List.map_map]
      simp only [Nat.cast_zero, zero_mul, add_zero]
      rw [List.append_assoc, List.singleton_append]
      congr 2
      apply List.map_congr_left
      intro k _
      simp only [Function.comp_apply]
      congr 1
      push_cast
      ring

theorem stepCount_range (b e s : ℤ) (hv : validSpan b e s) (hs : s ≠ 0) :
    ∀ j : ℕ, (j < stepCount b e s
      ↔ (min b e ≤ b + (j : ℤ) * s ∧ b + (j : ℤ) * s ≤ max b e)) := by
  intro j
  rw [validSpan] at hv
  push_neg at hv
  rcases lt_trichotomy s 0 with hneg | hzero | hpos
  · -- negative step: the range descends from b = max to e = min
    have hbe : e ≤ b := by
      by_contra hco
      push_neg at hco
      exact absurd hneg (by have := hv.1 hco; omega)
    have hmin : min b e = e := min_eq_right hbe
    have hmax : max b e = b := max_eq_left hbe
    have hnat : ((-s).toNat : ℤ) = -s := Int.toNat_of_nonneg (by omega)
    have hd : (((b - e).toNat : ℤ)) = b - e := Int.toNat_of_nonneg (by omega)
    have habs1 : (b - e).natAbs = (b - e).toNat := by omega
    have habs2 : s.natAbs = (-s).toNat := by omega
    rw [stepCount, hmin, hmax, habs1, habs2]
    have hup : b + (j : ℤ) * s ≤ b := by nlinarith [Int.natCast_nonneg j]
    have hiff : e ≤ b + (j : ℤ) * s ↔ (j : ℤ) * (-s) ≤ b - e := by
      rw [mul_neg]
      omega
    constructor
    · intro hj
      refine ⟨?_, hup⟩
      rw [hiff]
      have hj' : j ≤ (b - e).toNat / (-s).toNat := by omega
      have := (Nat.le_div_iff_mul_le (by omega : 0 < (-s).toNat)).1 hj'
      calc (j : ℤ) * (-s) = ((j * (-s).toNat : ℕ) : ℤ) := by
            rw [Nat.cast_mul, hnat]
        _ ≤ (((b - e).toNat : ℕ) : ℤ) := by exact_mod_cast this
        _ = b - e := hd
    · rintro ⟨hlo, _⟩
      rw [hiff] at hlo
      have : j * (-s).toNat ≤ (b - e).toNat := by
        have : ((j * (-s).toNat : ℕ) : ℤ) ≤ (((b - e).toNat : ℕ) : ℤ) := by
          rw [Nat.cast_mul, hnat, hd]
          exact hlo
        exact_mod_cast this
      have := (Nat.le_div_iff_mul_le (by omega : 0 < (-s).toNat)).2 this
      omega
  · exact absurd hzero hs
  · -- positive step: the range ascends from b = min to e = max
    have hbe : b ≤ e := by
      by_contra hco
      push_neg at hco
      exact absurd hpos (by have := hv.2 hco; omega)
    have hmin : min b e = b := min_eq_left hbe
    have hmax : max b e = e := max_eq_right hbe
    have hnat : (s.toNat : ℤ) = s := Int.toNat_of_nonneg (by omega)
    have hd : (((e - b).toNat : ℤ)) = e - b := Int.toNat_of_nonneg (by omega)
    have habs1 : (b - e).natAbs = (e - b).toNat := by omega
    have habs2 : s.natAbs = s.toNat := by omega
    rw [stepCount, hmin, hmax, habs1, habs2]
    have hlo : b ≤ b + (j : ℤ) * s := by nlinarith [Int.natCast_nonneg j]
    have hiff : b + (j : ℤ) * s ≤ e ↔ (j : ℤ) * s ≤ e - b := by omega
    constructor
    · intro hj
      refine ⟨hlo, ?_⟩
      rw [hiff]
      have hj' : j ≤ (e - b).toNat / s.toNat := by omega
      have := (Nat.le_div_iff_mul_le (by omega : 0 < s.toNat)).1 hj'
      calc (j : ℤ) * s = ((j * s.toNat : ℕ) : ℤ) := by
            rw [Nat.cast_mul, hnat]
        _ ≤ (((e - b).toNat : ℕ) : ℤ) := by exact_mod_cast this
        _ = e - b := hd
    · rintro ⟨_, hhi⟩
      rw [hiff] at hhi
      have : j * s.toNat ≤ (e - b).toNat := by
        have : ((j * s.toNat : ℕ) : ℤ) ≤ (((e - b).toNat : ℕ) : ℤ) := by
          rw [Nat.cast_mul, hnat, hd]
          exact hhi
        exact_mod_cast this
      have := (Nat.le_div_iff_mul_le (by omega : 0 < s.toNat)).2 this
      omega

/-- C2: for every valid `(begin, end, step)` with `step ≠ 0` and a
handler that never rejects, `IndexJob.run` terminates and the sequence of
indices it passes to handlers is exactly the arithmetic sequence
`begin, begin+step, …` up to `end` inclusive (every probe accepted), each
index exactly once — the trace's index list is duplicate-free and an
index is visited iff it is a term of the progression lying inside the
closed range. -/
theorem indexJob_no_reject_visits_sequence (b e s : ℤ)
    (hv : validSpan b e s) (hs : s ≠ 0) (fuel : ℕ)
    (hfuel : stepCount b e s + 2 ≤ fuel) :
    (∃ σf, IndexJob.run ⟨b, e, s, fun _ => false⟩ fuel
      = some (.ok ((List.range (stepCount b e s)).map
          (fun k : ℕ => Ev.mk (b + (k : ℤ) * s) true false false none e))
        σf))
    ∧ ((List.range (stepCount b e s)).map
        (fun k : ℕ => b + (k : ℤ) * s)).Nodup
    ∧ (∀ i : ℤ, i ∈ (List.range (stepCount b e s)).map
          (fun k : ℕ => b + (k : ℤ) * s)
        ↔ (min b e ≤ i ∧ i ≤ max b e ∧ ∃ k : ℕ, i = b + (k : ℤ) * s)) := by
  refine ⟨?_, ?_, ?_⟩
  · match fuel, hfuel with
    | fuel + 1, _ =>
      rw [IndexJob.run, execJob]
      have hstep : stepFn ⟨b, e, s, fun _ => false⟩ .enterStepping
          (initState ⟨b, e, s, fun _ => false⟩)
          = ([], .cont (.stepL b) (initState ⟨b, e, s, fun _ => false⟩)) := by
        rw [stepFn, if_neg (by exact hs)]
        rfl
      rw [hstep]
      dsimp only
      obtain ⟨σf, hrec⟩ := execJob_clean_step b e s (stepCount b e s) fuel b
        (initState ⟨b, e, s, fun _ => false⟩) [] rfl rfl rfl rfl
        (fun j hj => (stepCount_range b e s hv hs j).1 hj)
        (fun hco => by
          have := (stepCount_range b e s hv hs (stepCount b e s)).2 hco
          omega)
        (by omega)
      refine ⟨σf, ?_⟩
      rw [List.append_nil, hrec]
      simp
  · refine List.Nodup.map ?_ (List.nodup_range _)
    intro k1 k2 hk
    dsimp only at hk
    have : (k1 : ℤ) * s = (k2 : ℤ) * s := by linarith
    have := mul_right_cancel₀ hs this
    exact_mod_cast this
  · intro i
    constructor
    · intro hi
      obtain ⟨k, hk, rfl⟩ := List.mem_map.1 hi
      have hk' := List.mem_range.1 hk
      have := (stepCount_range b e s hv hs k).1 hk'
      exact ⟨this.1, this.2, k, rfl⟩
    · rintro ⟨h1, h2, k, rfl⟩
      refine List.mem_map.2 ⟨k, List.mem_range.2 ?_, rfl⟩
      exact (stepCount_range b e s hv hs k).2 ⟨h1, h2⟩

theorem indexJob_no_reject_visits_sequence_witness :
    validSpan 0 3 1 ∧ (1 : ℤ) ≠ 0 ∧ stepCount 0 3 1 + 2 ≤ 6 ∧
    ((∃ σf, IndexJob.run ⟨0, 3, 1, fun _ => false⟩ 6
      = some (.ok ((List.range (stepCount 0 3 1)).map
          (fun k : ℕ => Ev.mk (0 + (k : ℤ) * 1) true false false none 3))
        σf))
    ∧ ((List.range (stepCount 0 3 1)).map
        (fun k : ℕ => 0 + (k : ℤ) * 1)).Nodup
    ∧ (∀ i : ℤ, i ∈ (List.range (stepCount 0 3 1)).map
          (fun k : ℕ => 0 + (k : ℤ) * 1)
        ↔ (min 0 3 ≤ i ∧ i ≤ max 0 3 ∧ ∃ k : ℕ, i = 0 + (k : ℤ) * 1))) :=
  ⟨by unfold validSpan; decide, by decide, by decide,
    indexJob_no_reject_visits_sequence 0 3 1 (by unfold validSpan; decide)
      (by decide) 6 (by decide)⟩

/-! ### C7 — the cycle check of `FlagGroup.register` -/

theorem parentEdge_of_mem {α : Type} (parents : α → List α) {a b : α}
    (h : b ∈ parents a) : parentEdge parents a b := h

theorem dfsGo_loop_prefix {α : Type} [DecidableEq α] (parents : α → List α) :
    ∀ (fuel : ℕ) (inp : α ⊕ List α) (st st' : DfsSt α),
      dfsGo parents fuel inp st = some st' →
      ∃ L, st'.loop = st.loop ++ L := by
  intro fuel
  induction fuel with
  | zero => intro inp st st' h; simp [dfsGo] at h
  | succ fuel ih =>
    rintro (n | ps) st st' h
    · simp only [dfsGo] at h
      cases hrec : dfsGo parents fuel (Sum.inr (parents n))
          { st with visited := st.visited ++ [n] } with
      | none => rw [hrec] at h; cases h
      | some st1 =>
        rw [hrec] at h
        dsimp only at h
        have h' := Option.some.inj h
        obtain ⟨L1, hL1⟩ := ih _ _ _ hrec
        split_ifs at h' <;> subst h' <;>
          first
          | exact ⟨L1, by simpa using hL1⟩
          | exact ⟨L1 ++ [n], by
              have hL1' : st1.loop = st.loop ++ L1 := by simpa using hL1
              simp [hL1']⟩
    · cases ps with
      | nil =>
        simp only [dfsGo] at h
        have h' := Option.some.inj h
        subst h'
        exact ⟨[], by simp⟩
      | cons p ps =>
        simp only [dfsGo] at h
        by_cases hpv : p ∈ st.visited
        · rw [if_pos hpv] at h
          have h' := Option.some.inj h
          subst h'
          exact ⟨[p], by simp⟩
        · rw [if_neg hpv] at h
          cases hrec1 : dfsGo parents fuel (Sum.inl p) st with
          | none => rw [hrec1] at h; cases h
          | some st1 =>
            rw [hrec1] at h
            dsimp only at h
            obtain ⟨L1, hL1⟩ := ih _ _ _ hrec1
            obtain ⟨L2, hL2⟩ := ih _ _ _ h
            exact ⟨L1 ++ L2, by rw [hL2, hL1, List.append_assoc]⟩

theorem dfsGo_clean {α : Type} [DecidableEq α] (parents : α → List α) :
    ∀ (fuel : ℕ) (inp : α ⊕ List α) (st st' : DfsSt α),
      dfsGo parents fuel inp st = some st' →
      st.loop = [] → st'.loop = [] →
      st.collecting = false → st.visited.Nodup →
      (match inp with | .inl n => n ∉ st.visited | .inr _ => True) →
      st'.collecting = false ∧ st'.visited.Nodup ∧
      ∃ D, st'.visited = st.visited ++ D ∧
        (∀ m ∈ D, ∀ p ∈ parents m,
          p ∈ st'.visited ∧ st'.visited.indexOf m < st'.visited.indexOf p) ∧
        (match inp with
         | .inl n => D.head? = some n
         | .inr ps => ∀ p ∈ ps, p ∈ D) := by
  intro fuel
  induction fuel with
  | zero => intro inp st st' h; simp [dfsGo] at h
  | succ fuel ih =>
    rintro (n | ps) st st' h hl hl' hc hnd hin
    · simp only [dfsGo] at h
      cases hrec : dfsGo parents fuel (Sum.inr (parents n))
          { st with visited := st.visited ++ [n] } with
      | none => rw [hrec] at h; cases h
      | some st1 =>
        rw [hrec] at h
        dsimp only at h
        have h' := Option.some.inj h
        by_cases hc1 : st1.loop ≠ [] ∧ n ∈ st1.loop
        · rw [if_pos hc1] at h'
          rw [if_neg (by simp :
            ¬({ st1 with collecting := false } : DfsSt α).collecting = true)] at h'
          subst h'
          exact absurd hl' hc1.1
        · rw [if_neg hc1] at h'
          by_cases hc2 : st1.collecting = true
          · rw [if_pos hc2] at h'
            subst h'
            simp at hl'
          · rw [if_neg hc2] at h'
            subst h'
            have hnodb : (st.visited ++ [n]).Nodup := by
              rw [List.nodup_append]
              exact ⟨hnd, List.nodup_singleton n,
                fun a ha hb => hin (by rwa [List.mem_singleton.mp hb] at ha)⟩
            obtain ⟨hcol1, hnd1, D1, hvis1, hedge1, hps⟩ :=
              ih (Sum.inr (parents n)) { st with visited := st.visited ++ [n] }
                st1 hrec hl hl' hc hnodb trivial
            have hvis1' : st1.visited = st.visited ++ (n :: D1) := by
              rw [hvis1]; simp
            refine ⟨hcol1, hnd1, n :: D1, hvis1', ?_, rfl⟩
            intro m hm p hp
            rcases List.mem_cons.mp hm with rfl | hmD
            · have hpD : p ∈ D1 := hps p hp
              have hnd1' : (st.visited ++ (m :: D1)).Nodup := hvis1' ▸ hnd1
              have hdisj := List.disjoint_of_nodup_append hnd1'
              have hndr : (m :: D1).Nodup := (List.nodup_append.mp hnd1').2.1
              have hnD : m ∉ D1 := (List.nodup_cons.mp hndr).1
              have hpne : m ≠ p := fun e => hnD (e ▸ hpD)
              have hpnotin : p ∉ st.visited := fun hcon =>
                hdisj hcon (List.mem_cons_of_mem _ hpD)
              constructor
              · rw [hvis1']
                exact List.mem_append_right _ (List.mem_cons_of_mem _ hpD)
              · rw [hvis1', List.indexOf_append_of_not_mem hin,
                  List.indexOf_append_of_not_mem hpnotin,
                  List.indexOf_cons_self, List.indexOf_cons_ne _ hpne]
                omega
            · exact hedge1 m hmD p hp
    · cases ps with
      | nil =>
        simp only [dfsGo] at h
        have h' := Option.some.inj h
        subst h'
        refine ⟨hc, hnd, [], by simp, ?_, ?_⟩
        · intro m hm; cases hm
        · intro p hp; cases hp
      | cons p ps =>
        simp only [dfsGo] at h
        by_cases hpv : p ∈ st.visited
        · rw [if_pos hpv] at h
          have h' := Option.some.inj h
          subst h'
          simp at hl'
        · rw [if_neg hpv] at h
          cases hrec1 : dfsGo parents fuel (Sum.inl p) st with
          | none => rw [hrec1] at h; cases h
          | some st1 =>
            rw [hrec1] at h
            dsimp only at h
            obtain ⟨L2, hL2⟩ := dfsGo_loop_prefix parents fuel _ _ _ h
            have hl1 : st1.loop = [] := by
              have hcat : st1.loop ++ L2 = [] := by rw [← hL2, hl']
              exact (List.append_eq_nil.mp hcat).1
            obtain ⟨hcol1, hnd1, D1, hvis1, hedge1, hhd1⟩ :=
              ih (Sum.inl p) st st1 hrec1 hl hl1 hc hnd hpv
            obtain ⟨hcol2, hnd2, D2, hvis2, hedge2, hmem2⟩ :=
              ih (Sum.inr ps) st1 st' h hl1 hl' hcol1 hnd1 trivial
            refine ⟨hcol2, hnd2, D1 ++ D2,
              by rw [hvis2, hvis1, List.append_assoc], ?_, ?_⟩
            · intro m hm p' hp'
              rcases List.mem_append.mp hm with hm1 | hm2
              · obtain ⟨hpmem, hplt⟩ := hedge1 m hm1 p' hp'
                have hmmem : m ∈ st1.visited := by
                  rw [hvis1]; exact List.mem_append_right _ hm1
                constructor
                · rw [hvis2]; exact List.mem_append_left _ hpmem
                · rw [hvis2, List.indexOf_append_of_mem hmmem,
                    List.indexOf_append_of_mem hpmem]
                  exact hplt
              · exact hedge2 m hm2 p' hp'
            · intro q hq
              rcases List.mem_cons.mp hq with rfl | hq'
              · exact List.mem_append_left _ (List.mem_of_mem_head? hhd1)
              · exact List.mem_append_right _ (hmem2 q hq')

theorem check_loop_ok_no_cycle {α : Type} [DecidableEq α]
    (parents : α → List α) (fuel : ℕ) (f : α)
    (h : check_loop parents fuel f = some (Except.ok ())) :
    ¬ Relation.TransGen (parentEdge parents) f f := by
  unfold check_loop at h
  cases hrec : dfsGo parents fuel (Sum.inl f) ⟨[], [], false⟩ with
  | none => rw [hrec] at h; simp at h
  | some st' =>
    rw [hrec] at h
    simp only [Option.map_some'] at h
    have hloop : st'.loop = [] := by
      by_cases hl : st'.loop = []
      · exact hl
      · rw [if_neg hl] at h; simp at h
    obtain ⟨-, hnd, D, hvis, hedge, hhd⟩ :=
      dfsGo_clean parents fuel (Sum.inl f) ⟨[], [], false⟩ st' hrec rfl hloop rfl
        List.nodup_nil (List.not_mem_nil f)
    have hvisD : st'.visited = D := by simpa using hvis
    intro hcyc
    have key : ∀ x y, Relation.TransGen (parentEdge parents) x y →
        x ∈ st'.visited →
        y ∈ st'.visited ∧ st'.visited.indexOf x < st'.visited.indexOf y := by
      intro x y hxy
      induction hxy with
      | single hr =>
        intro hx
        exact hedge x (hvisD ▸ hx) _ hr
      | tail hxz hr ihz =>
        intro hx
        obtain ⟨hz, hlt⟩ := ihz hx
        obtain ⟨hy, hlt2⟩ := hedge _ (hvisD ▸ hz) _ hr
        exact ⟨hy, lt_trans hlt hlt2⟩
    have hfmem : f ∈ st'.visited := by
      rw [hvisD]; exact List.mem_of_mem_head? hhd
    exact lt_irrefl _ (key f f hcyc hfmem).2

theorem register_ok_each {α : Type} [DecidableEq α]
    (parents : α → List α) (fuel : ℕ) :
    ∀ (new : List α),
      FlagGroup.register parents fuel new = some (Except.ok ()) →
      ∀ f ∈ new, check_loop parents fuel f = some (Except.ok ()) := by
  intro new
  induction new with
  | nil => intro _ f hf; cases hf
  | cons g gs ihg =>
    intro h f hf
    simp only [FlagGroup.register] at h
    cases hcl : check_loop parents fuel g with
    | none => rw [hcl] at h; simp at h
    | some r =>
      cases r with
      | error L => rw [hcl] at h; simp at h
      | ok u =>
        rw [hcl] at h
        dsimp only at h
        rcases List.mem_cons.mp hf with rfl | hf'
        · cases u; exact hcl
        · exact ihg h f hf'

theorem register_error_nonempty {α : Type} [DecidableEq α]
    (parents : α → List α) (fuel : ℕ) :
    ∀ (new : List α) (L : List α),
      FlagGroup.register parents fuel new = some (Except.error L) → L ≠ [] := by
  intro new
  induction new with
  | nil =>
    intro L h
    simp [FlagGroup.register] at h
  | cons g gs ihg =>
    intro L h
    simp only [FlagGroup.register] at h
    cases hcl : check_loop parents fuel g with
    | none => rw [hcl] at h; simp at h
    | some r =>
      cases r with
      | ok u =>
        rw [hcl] at h
        dsimp only at h
        exact ihg L h
      | error L' =>
        rw [hcl] at h
        simp only [Option.some.injEq, Except.error.injEq] at h
        subst h
        unfold check_loop at hcl
        cases hrec : dfsGo parents fuel (Sum.inl g) ⟨[], [], false⟩ with
        | none => rw [hrec] at hcl; simp at hcl
        | some st =>
          rw [hrec] at hcl
          simp only [Option.map_some'] at hcl
          by_cases hlz : st.loop = []
          · rw [if_pos hlz] at hcl; simp at hcl
          · rw [if_neg hlz] at hcl
            simp only [Option.some.injEq, Except.error.injEq] at hcl
            intro hcon
            exact hlz (by rw [hcl, hcon])

/-- C7 (counterexample): registering the flags `0..5` whose parent graph is
the diamond `0 → {1, 2} → 3` plus the genuine two-cycle `4 ↔ 5` fails with
the loop message `[3, 2, 0]` — but `[3, 2, 0]` is not a cycle of the parent
graph (`parsC7 3 = []`), even though the registered members do contain the
real cycle `[4, 5]`.  The DFS's `visit_states` set is shared across
branches, so the second arm of the diamond hits the visited node `3` and is
reported as a loop; the error does not name the cycle. -/
theorem register_cycle_error_names_noncycle :
    FlagGroup.register parsC7 20 [0, 1, 2, 3, 4, 5]
        = some (Except.error [3, 2, 0]) ∧
    ¬ isCycleChain parsC7 [3, 2, 0] ∧
    isCycleChain parsC7 [4, 5] ∧
    (4 : ℕ) ∈ [0, 1, 2, 3, 4, 5] ∧ (5 : ℕ) ∈ [0, 1, 2, 3, 4, 5] := by
  refine ⟨rfl, fun hcon => ?_, ⟨by decide, ?_⟩, by decide, by decide⟩
  · have hch := hcon.2
    simp [parsC7, List.chain'_cons] at hch
  · simp [parsC7, List.chain'_cons]

/-- **C7** (amended): if the parent references of the newly registered
members contain a genuine cycle through one of them (`Relation.TransGen` of
the parent-edge relation from some new member back to itself), then
`FlagGroup.register` never succeeds: whenever it returns a result at all,
that result is a cycle error carrying a nonempty loop list — but the list
it carries need not be a cycle (see the counterexample). -/
theorem register_fails_on_parent_cycle {α : Type} [DecidableEq α]
    (parents : α → List α) (new : List α) (f : α) (hf : f ∈ new)
    (hcyc : Relation.TransGen (parentEdge parents) f f)
    (fuel : ℕ) (res : Except (List α) Unit)
    (h : FlagGroup.register parents fuel new = some res) :
    ∃ L, res = Except.error L ∧ L ≠ [] := by
  cases res with
  | ok u =>
    cases u
    exact absurd hcyc
      (check_loop_ok_no_cycle parents fuel f (register_ok_each parents fuel new h f hf))
  | error L =>
    exact ⟨L, rfl, register_error_nonempty parents fuel new L h⟩

/-- Witness for C7: on the graph `parsC7` the members `4` and `5` form a
parent cycle, and registering `[4, 5]` indeed yields `Except.error [4, 5]`,
a nonempty loop list. -/
theorem register_fails_on_parent_cycle_witness :
    FlagGroup.register parsC7 20 [4, 5] = some (Except.error [4, 5]) ∧
    ∃ L, (Except.error [4, 5] : Except (List ℕ) Unit) = Except.error L ∧ L ≠ [] :=
  ⟨rfl,
    register_fails_on_parent_cycle parsC7 [4, 5] 4 (by decide)
      (Relation.TransGen.tail
        (Relation.TransGen.single
          (parentEdge_of_mem parsC7 (by decide : (5 : ℕ) ∈ parsC7 4)))
        (parentEdge_of_mem parsC7 (by decide : (4 : ℕ) ∈ parsC7 5)))
      20 (Except.error [4, 5]) rfl⟩
